import Mathlib

/-!
# flow-synth, `livecode-examples/simple.c`

A verification development for the livecode example: a stream processor that
reads a block of interleaved stereo `float` samples from standard input, applies
the absolute-value distortion `fabs(x)*2-1` to every sample and writes the block
to standard output, forever.

## Embedding

* A `float` object is its IEEE-754 binary32 bit pattern, a natural number below
  `2 ^ 32`.  The expression `fabs(frame[i])*2-1` is evaluated as C prescribes:
  the `float` is converted to `double`, `fabs`, `*` and `-` are binary64
  operations (round to nearest, ties to even) with the `int` constants converted
  to `double`, and the assignment converts the `double` back to `float`.
  A NaN carries no payload in the model; it is stored as the default quiet NaN.
  `toRat` and `value` give the rational number a finite datum denotes.
* `float frame[CHANNELS]` is a list of samples, `float buffer[BUFSIZE][CHANNELS]`
  a list of frames.  The `for` loops are folds over `List.range`; the call
  `f(buffer[i])` replaces frame `i` by `f` of it.
* `read` and `write` see the buffer as `sizeof buffer` bytes (little endian, row
  major).  One loop iteration is driven by the bytes its `read` delivers, which
  may be fewer than requested (none at end of stream or on an error); the return
  values of `read` and `write` are discarded by the program and so do not occur
  in the model.  The model records the bytes of every `write` request.
* `for(;;)` never terminates; `mainLoop` runs as many iterations as there are
  read results supplied.  The buffer is declared outside the loop, so it is the
  state carried from one iteration to the next; its first contents are
  arbitrary.
-/

namespace FlowSynth

/-! ## Constants of the program -/

/-- `const size_t BUFSIZE = 1024;` -/
def BUFSIZE : Nat := 1024

/-- `const size_t CHANNELS = 2;` -/
def CHANNELS : Nat := 2

/-- `sizeof (float)` -/
def sizeofFloat : Nat := 4

/-- `sizeof buffer` for `float buffer[BUFSIZE][CHANNELS]` -/
def sizeofBuffer : Nat := BUFSIZE * CHANNELS * sizeofFloat

/-! ## IEEE-754 arithmetic -/

/-- A decoded floating-point datum.  `fin neg m e` stands for
`(-1)^neg * m * 2^e`. -/
inductive FP where
  | nan : FP
  | inf (neg : Bool) : FP
  | fin (neg : Bool) (m : Nat) (e : Int) : FP
deriving DecidableEq, Repr

/-- Parameters of a binary interchange format: precision in bits, and the least
and greatest exponent of the last place of a finite number. -/
structure Format where
  prec : Nat
  emin : Int
  emax : Int
deriving DecidableEq, Repr

/-- The format of `float`. -/
def binary32 : Format := ⟨24, -149, 104⟩

/-- The format of `double`. -/
def binary64 : Format := ⟨53, -1074, 971⟩

/-- Number of binary digits of `n`, computed with `fuel` halvings at most. -/
def bitLengthAux : Nat → Nat → Nat
  | 0, _ => 0
  | fuel + 1, n => if n = 0 then 0 else bitLengthAux fuel (n / 2) + 1

/-- Number of binary digits of `n`. -/
def bitLength (n : Nat) : Nat := bitLengthAux n n

/-- Round the exact value `(-1)^neg * m * 2^e` to the format, to nearest with
ties to even, overflowing to infinity. -/
def roundFin (fmt : Format) (neg : Bool) (m : Nat) (e : Int) : FP :=
  if m = 0 then FP.fin neg 0 fmt.emin
  else
    let e1 : Int := max (e + (bitLength m : Int) - (fmt.prec : Int)) fmt.emin
    if e1 ≤ e then
      if fmt.emax < e1 then FP.inf neg
      else FP.fin neg (m * 2 ^ (e - e1).toNat) e1
    else
      let sh : Nat := (e1 - e).toNat
      let q : Nat := m / 2 ^ sh
      let r : Nat := m % 2 ^ sh
      let half : Nat := 2 ^ (sh - 1)
      let q1 : Nat := if half < r ∨ (r = half ∧ q % 2 = 1) then q + 1 else q
      if q1 = 2 ^ fmt.prec then
        if fmt.emax < e1 + 1 then FP.inf neg else FP.fin neg (2 ^ (fmt.prec - 1)) (e1 + 1)
      else if fmt.emax < e1 then FP.inf neg
      else FP.fin neg q1 e1

/-- Conversion of a datum to a format (`float` to `double` and back). -/
def convert (fmt : Format) : FP → FP
  | FP.nan => FP.nan
  | FP.inf neg => FP.inf neg
  | FP.fin neg m e => roundFin fmt neg m e

/-- Conversion of a non-negative `int` constant to a format. -/
def ofNat (fmt : Format) (n : Nat) : FP := roundFin fmt false n 0

/-- The C library function `fabs`: clear the sign. -/
def fabs : FP → FP
  | FP.nan => FP.nan
  | FP.inf _ => FP.inf false
  | FP.fin _ m e => FP.fin false m e

/-- IEEE-754 multiplication in a format. -/
def mul (fmt : Format) : FP → FP → FP
  | FP.nan, _ => FP.nan
  | _, FP.nan => FP.nan
  | FP.inf a, FP.inf b => FP.inf (xor a b)
  | FP.inf a, FP.fin b m _ => if m = 0 then FP.nan else FP.inf (xor a b)
  | FP.fin a m _, FP.inf b => if m = 0 then FP.nan else FP.inf (xor a b)
  | FP.fin a m1 e1, FP.fin b m2 e2 => roundFin fmt (xor a b) (m1 * m2) (e1 + e2)

/-- The integer `(-1)^neg * m`. -/
def signed (neg : Bool) (m : Nat) : Int := if neg then -(m : Int) else (m : Int)

/-- IEEE-754 subtraction in a format. -/
def sub (fmt : Format) : FP → FP → FP
  | FP.nan, _ => FP.nan
  | _, FP.nan => FP.nan
  | FP.inf a, FP.inf b => if a = b then FP.nan else FP.inf a
  | FP.inf a, FP.fin _ _ _ => FP.inf a
  | FP.fin _ _ _, FP.inf b => FP.inf (!b)
  | FP.fin a m1 e1, FP.fin b m2 e2 =>
    let e : Int := min e1 e2
    let z : Int := signed a (m1 * 2 ^ (e1 - e).toNat) - signed b (m2 * 2 ^ (e2 - e).toNat)
    if z = 0 then FP.fin (a && !b && decide (m1 = 0)) 0 fmt.emin
    else roundFin fmt (decide (z < 0)) z.natAbs e

/-- The datum denoted by a binary32 bit pattern. -/
def decode32 (w : Nat) : FP :=
  let neg : Bool := decide (w / 2 ^ 31 % 2 = 1)
  let ex : Nat := w / 2 ^ 23 % 256
  let man : Nat := w % 2 ^ 23
  if ex = 255 then (if man = 0 then FP.inf neg else FP.nan)
  else if ex = 0 then FP.fin neg man (-149)
  else FP.fin neg (2 ^ 23 + man) ((ex : Int) - 150)

/-- The binary32 bit pattern of a datum of the `float` format. -/
def encode32 : FP → Nat
  | FP.nan => 0x7FC00000
  | FP.inf neg => (if neg then 2 ^ 31 else 0) + 0x7F800000
  | FP.fin neg m e =>
    (if neg then 2 ^ 31 else 0) +
      (if m < 2 ^ 23 then m else (e + 150).toNat * 2 ^ 23 + (m - 2 ^ 23))

/-- The assignment `frame[i] = fabs(frame[i])*2-1` seen on one `float` object:
the new bit pattern of `frame[i]` in terms of the old one. -/
def transform (w : Nat) : Nat :=
  encode32 (convert binary32
    (sub binary64 (mul binary64 (fabs (convert binary64 (decode32 w))) (ofNat binary64 2))
      (ofNat binary64 1)))

/-! ## The program -/

/-- The function `f`:
`for (size_t i = 0; i < CHANNELS; i++) frame[i] = fabs(frame[i])*2-1;` -/
def f (frame : List Nat) : List Nat :=
  (List.range CHANNELS).foldl (fun fr i => fr.set i (transform (fr.getD i 0))) frame

/-- The statement `f(buffer[i]);`: the frame at index `i` is handed to `f`, which
updates it in place. -/
def callF (i : Nat) (buffer : List (List Nat)) : List (List Nat) :=
  buffer.set i (f (buffer.getD i []))

/-- The processing pass of `main`:
`for (size_t i = 0; i < BUFSIZE; i++) f(buffer[i]);` -/
def processBlock (buffer : List (List Nat)) : List (List Nat) :=
  (List.range BUFSIZE).foldl (fun buf i => callF i buf) buffer

/-- Object representation of a `float`: four bytes, least significant first. -/
def bytesOfFloat (w : Nat) : List Nat :=
  [w % 256, w / 2 ^ 8 % 256, w / 2 ^ 16 % 256, w / 2 ^ 24 % 256]

/-- The `float` whose object representation starts the byte list. -/
def floatOfBytes (bs : List Nat) : Nat :=
  bs.getD 0 0 % 256 + 2 ^ 8 * (bs.getD 1 0 % 256) + 2 ^ 16 * (bs.getD 2 0 % 256) +
    2 ^ 24 * (bs.getD 3 0 % 256)

/-- Object representation of `buffer`: the frames in order, the samples of a
frame in order. -/
def bufferBytes (buffer : List (List Nat)) : List Nat :=
  buffer.flatten.flatMap bytesOfFloat

/-- The array `float buffer[BUFSIZE][CHANNELS]` held by a memory region:
`buffer[i][c]` lies at byte offset `sizeof (float) * (i * CHANNELS + c)`. -/
def bufferOfBytes (mem : List Nat) : List (List Nat) :=
  (List.range BUFSIZE).map fun i =>
    (List.range CHANNELS).map fun c =>
      floatOfBytes ((mem.drop (sizeofFloat * (i * CHANNELS + c))).take sizeofFloat)

/-- The call `read(STDIN_FILENO, buffer, sizeof buffer)` when the system delivers
the bytes `data`: at most `sizeof buffer` of them are stored at the start of the
buffer, the rest of the buffer is left as it was. -/
def read (data : List Nat) (buffer : List (List Nat)) : List (List Nat) :=
  bufferOfBytes
    (data.take sizeofBuffer ++ (bufferBytes buffer).drop (min data.length sizeofBuffer))

/-- The bytes handed over by `write(STDOUT_FILENO, buffer, sizeof buffer)`. -/
def write (buffer : List (List Nat)) : List Nat :=
  (bufferBytes buffer).take sizeofBuffer

/-- One pass through the body of `for(;;)` when `read` delivers `data`: the
buffer at the end of the pass and the bytes written. -/
def iteration (buffer : List (List Nat)) (data : List Nat) : List (List Nat) × List Nat :=
  let buffer1 := read data buffer
  let buffer2 := processBlock buffer1
  (buffer2, write buffer2)

/-- The loop `for(;;)` run for as many passes as there are read results; the
result lists the bytes written by each pass, in order. -/
def mainLoop : List (List Nat) → List (List Nat) → List (List Nat)
  | _, [] => []
  | buffer, data :: rest =>
    (iteration buffer data).2 :: mainLoop (iteration buffer data).1 rest

/-! ## Vocabulary of the specification -/

/-- A list of frames that is a value of the type `float [BUFSIZE][CHANNELS]`. -/
def IsBuffer (buffer : List (List Nat)) : Prop :=
  buffer.length = BUFSIZE ∧ ∀ fr ∈ buffer, fr.length = CHANNELS ∧ ∀ w ∈ fr, w < 2 ^ 32

/-- The sample `buffer[i][c]`, when both indices are in range. -/
def sampleAt (buffer : List (List Nat)) (i c : Nat) : Option Nat :=
  buffer[i]?.bind fun fr => fr[c]?

/-- The bytes written by a pass of the loop whose read delivered the full block
`block`, as a function of that block alone: the program's sample transform on
every sample of the block. -/
def blockTransform (block : List Nat) : List Nat :=
  bufferBytes ((bufferOfBytes block).map fun fr => fr.map transform)

/-- The `k`-th sample of a block of bytes: the `float` held by the four bytes at
offset `sizeof (float) * k`. -/
def sampleOfBlock (block : List Nat) (k : Nat) : Nat :=
  floatOfBytes ((block.drop (sizeofFloat * k)).take sizeofFloat)

/-- The buffer all of whose samples have the bit pattern `w`. -/
def constBuffer (w : Nat) : List (List Nat) :=
  List.replicate BUFSIZE (List.replicate CHANNELS w)

/-- The bytes of a block all of whose samples have the bit pattern `w`. -/
def constBlock (w : Nat) : List Nat :=
  bufferBytes (constBuffer w)

/-- The bytes of frame `i` within the bytes of a block. -/
def frameBytes (block : List Nat) (i : Nat) : List Nat :=
  (block.drop (sizeofFloat * CHANNELS * i)).take (sizeofFloat * CHANNELS)

/-- Bit pattern of the `float` value `0.0`. -/
def f32Zero : Nat := 0x00000000

/-- Bit pattern of the `float` value `0.5`. -/
def f32Half : Nat := 0x3F000000

/-- Bit pattern of the `float` value `-0.5`. -/
def f32NegHalf : Nat := 0xBF000000

/-- Bit pattern of the `float` value `1.0`. -/
def f32One : Nat := 0x3F800000

/-- Bit pattern of the `float` value `-1.0`. -/
def f32NegOne : Nat := 0xBF800000

/-- The rational number denoted by a finite datum. -/
def toRat : FP → Option ℚ
  | FP.fin neg m e => some ((signed neg m : ℚ) * (2 : ℚ) ^ e)
  | _ => none

/-- The rational number denoted by a binary32 bit pattern, when it is finite. -/
def value (w : Nat) : Option ℚ := toRat (decode32 w)

/-- The expression `fabs(x)*2-1` over the rationals: the transform in exact
arithmetic. -/
def transformExact (s : ℚ) : ℚ := |s| * 2 - 1

/-- A rational number that is the value of a finite `float`. -/
def Representable32 (r : ℚ) : Prop :=
  ∃ (m : Nat) (e : Int), m < 2 ^ 24 ∧ -149 ≤ e ∧ e ≤ 104 ∧ |r| = (m : ℚ) * 2 ^ e

/-- The values of the `BUFSIZE * CHANNELS` samples of a block of bytes, in order
(`none` for a sample that is not a finite number). -/
def blockValues (block : List Nat) : List (Option ℚ) :=
  (List.range (BUFSIZE * CHANNELS)).map fun k => value (sampleOfBlock block k)

/-- The block transform `T` of the specification, on the sample values of a
block and in exact arithmetic: `|s| * 2 - 1` applied to every sample. -/
def specBlockTransform (samples : List ℚ) : List ℚ :=
  samples.map fun s => |s| * 2 - 1

/-- A datum in the canonical form of a format: the significand fits the
precision, the exponent lies in range, and a significand without leading bit
occurs at the least exponent only. -/
def Canonical (fmt : Format) : FP → Prop
  | FP.fin _ m e =>
    m < 2 ^ fmt.prec ∧ fmt.emin ≤ e ∧ e ≤ fmt.emax ∧ (m < 2 ^ (fmt.prec - 1) → e = fmt.emin)
  | _ => True

/-! ## Lemmas -/

set_option maxRecDepth 100000
set_option exponentiation.threshold 2048

theorem set_append_cons {α : Type} (A B : List α) (x y : α) (n : Nat) (h : A.length = n) :
    (A ++ x :: B).set n y = A ++ y :: B := by
  subst h
  simp

theorem foldl_set_range {α : Type} (g : α → α) (d : α) (n : Nat) (l : List α) :
    (List.range n).foldl (fun l i => l.set i (g (l.getD i d))) l
      = (l.take n).map g ++ l.drop n := by
  induction n with
  | zero => simp
  | succ n ih =>
    rw [List.range_succ, List.foldl_append, ih]
    simp only [List.foldl_cons, List.foldl_nil]
    by_cases hn : n < l.length
    · have h1 : ((l.take n).map g ++ l.drop n).getD n d = l[n] := by
        rw [List.getD_eq_getElem?_getD, List.getElem?_append]
        simp [hn, Nat.min_eq_left (Nat.le_of_lt hn)]
      rw [h1, List.drop_eq_getElem_cons hn,
        set_append_cons _ _ _ _ n (by simp [Nat.le_of_lt hn]), List.take_succ,
        List.getElem?_eq_getElem hn]
      simp only [Option.toList, List.map_append, List.map_cons, List.map_nil, List.append_assoc,
        List.singleton_append]
    · have hl : l.length ≤ n := Nat.le_of_not_lt hn
      rw [List.take_of_length_le hl, List.drop_of_length_le hl,
        List.take_of_length_le (Nat.le_succ_of_le hl),
        List.drop_of_length_le (Nat.le_succ_of_le hl)]
      simp only [List.append_nil]
      apply List.set_eq_of_length_le
      simpa using hl

theorem f_eq (frame : List Nat) :
    f frame = (frame.take CHANNELS).map transform ++ frame.drop CHANNELS :=
  foldl_set_range transform 0 CHANNELS frame

theorem f_eq_map (frame : List Nat) (h : frame.length = CHANNELS) :
    f frame = frame.map transform := by
  rw [f_eq, List.take_of_length_le (Nat.le_of_eq h), List.drop_of_length_le (Nat.le_of_eq h),
    List.append_nil]

theorem length_f (frame : List Nat) : (f frame).length = frame.length := by
  rw [f_eq, List.length_append, List.length_map, ← List.length_append, List.take_append_drop]

theorem processBlock_eq (buffer : List (List Nat)) :
    processBlock buffer = (buffer.take BUFSIZE).map f ++ buffer.drop BUFSIZE :=
  foldl_set_range f [] BUFSIZE buffer

theorem processBlock_eq_map (buffer : List (List Nat)) (h : buffer.length = BUFSIZE) :
    processBlock buffer = buffer.map f := by
  rw [processBlock_eq, List.take_of_length_le (Nat.le_of_eq h),
    List.drop_of_length_le (Nat.le_of_eq h), List.append_nil]

theorem length_processBlock (buffer : List (List Nat)) :
    (processBlock buffer).length = buffer.length := by
  rw [processBlock_eq, List.length_append, List.length_map, ← List.length_append,
    List.take_append_drop]

theorem drop_flatMap {α β : Type} (g : α → List β) (n : Nat) (j : Nat) (xs : List α)
    (hg : ∀ x ∈ xs, (g x).length = n) :
    (xs.flatMap g).drop (n * j) = (xs.drop j).flatMap g := by
  induction j generalizing xs with
  | zero => simp
  | succ j ih =>
    cases xs with
    | nil => simp
    | cons x xs =>
      have hx : (g x).length = n := hg x (List.mem_cons_self _ _)
      rw [List.flatMap_cons, List.drop_succ_cons, Nat.mul_succ, Nat.add_comm, ← hx,
        List.drop_append, hx]
      exact ih xs (fun y hy => hg y (List.mem_cons_of_mem _ hy))

theorem floatOfBytes_bytesOfFloat (w : Nat) (h : w < 2 ^ 32) :
    floatOfBytes (bytesOfFloat w) = w := by
  simp only [floatOfBytes, bytesOfFloat, List.getD_cons_zero, List.getD_cons_succ]
  omega

theorem floatOfBytes_append (w : Nat) (rest : List Nat) :
    floatOfBytes ((bytesOfFloat w ++ rest).take sizeofFloat) = floatOfBytes (bytesOfFloat w) := by
  simp [bytesOfFloat, sizeofFloat]

theorem flatten_eq_flatMap {α : Type} (B : List (List α)) : B.flatten = B.flatMap id := by
  induction B with
  | nil => rfl
  | cons x xs ih => simp [List.flatMap_cons]

theorem drop_eq_cons_of_getElem? {α : Type} (l : List α) (i : Nat) (x : α) (h : l[i]? = some x) :
    l.drop i = x :: l.drop (i + 1) := by
  obtain ⟨hi, hx⟩ := List.getElem?_eq_some_iff.mp h
  rw [List.drop_eq_getElem_cons hi, hx]

theorem slice_bufferBytes (B : List (List Nat)) (hB : ∀ fr ∈ B, fr.length = CHANNELS)
    (i c : Nat) (fr : List Nat) (w : Nat) (hfr : B[i]? = some fr) (hw : fr[c]? = some w) :
    ((bufferBytes B).drop (sizeofFloat * (i * CHANNELS + c))).take sizeofFloat
      = bytesOfFloat w := by
  have h4 : ∀ x ∈ B.flatten, (bytesOfFloat x).length = sizeofFloat := fun _ _ => rfl
  have h2 : ∀ x ∈ B, (id x : List Nat).length = CHANNELS := hB
  unfold bufferBytes
  rw [drop_flatMap bytesOfFloat sizeofFloat _ _ h4, Nat.mul_comm i CHANNELS, ← List.drop_drop,
    flatten_eq_flatMap, drop_flatMap id CHANNELS i B h2, drop_eq_cons_of_getElem? B i fr hfr,
    List.flatMap_cons, id, List.drop_append_of_le_length
      (Nat.le_of_lt (List.getElem?_eq_some_iff.mp hw).1),
    drop_eq_cons_of_getElem? fr c w hw, List.cons_append, List.flatMap_cons]
  simp [bytesOfFloat, sizeofFloat]

theorem length_bufferOfBytes (mem : List Nat) : (bufferOfBytes mem).length = BUFSIZE := by
  simp [bufferOfBytes]

theorem getElem?_bufferOfBytes (mem : List Nat) (i : Nat) (hi : i < BUFSIZE) :
    (bufferOfBytes mem)[i]? = some ((List.range CHANNELS).map fun c =>
      floatOfBytes ((mem.drop (sizeofFloat * (i * CHANNELS + c))).take sizeofFloat)) := by
  simp [bufferOfBytes, List.getElem?_map, List.getElem?_range hi]

theorem length_frame_bufferOfBytes (mem : List Nat) (fr : List Nat)
    (h : fr ∈ bufferOfBytes mem) : fr.length = CHANNELS := by
  simp only [bufferOfBytes, List.mem_map] at h
  obtain ⟨i, _, rfl⟩ := h
  simp

theorem slice_eq_of_take_eq {α : Type} (mem mem' : List α) (N off n : Nat)
    (h : mem.take N = mem'.take N) (hle : off + n ≤ N) :
    (mem.drop off).take n = (mem'.drop off).take n := by
  have key : ∀ l : List α, (l.drop off).take n = ((l.take N).drop off).take n := by
    intro l
    rw [List.drop_take, List.take_take, Nat.min_eq_left (by omega)]
  rw [key mem, key mem', h]

theorem frame_bufferOfBytes_congr (mem mem' : List Nat) (i : Nat) (hi : i < BUFSIZE)
    (h : ∀ c, c < CHANNELS →
      (mem.drop (sizeofFloat * (i * CHANNELS + c))).take sizeofFloat
        = (mem'.drop (sizeofFloat * (i * CHANNELS + c))).take sizeofFloat) :
    (bufferOfBytes mem)[i]? = (bufferOfBytes mem')[i]? := by
  rw [getElem?_bufferOfBytes mem i hi, getElem?_bufferOfBytes mem' i hi]
  congr 1
  apply List.map_congr_left
  intro c hc
  rw [h c (List.mem_range.mp hc)]

theorem bufferOfBytes_congr (mem mem' : List Nat)
    (h : mem.take sizeofBuffer = mem'.take sizeofBuffer) :
    bufferOfBytes mem = bufferOfBytes mem' := by
  apply List.ext_getElem?
  intro i
  by_cases hi : i < BUFSIZE
  · apply frame_bufferOfBytes_congr mem mem' i hi
    intro c hc
    apply slice_eq_of_take_eq mem mem' sizeofBuffer _ _ h
    simp only [sizeofBuffer, sizeofFloat, BUFSIZE, CHANNELS] at *
    omega
  · rw [List.getElem?_eq_none (by rw [length_bufferOfBytes]; omega),
      List.getElem?_eq_none (by rw [length_bufferOfBytes]; omega)]

theorem bufferOfBytes_bufferBytes (B : List (List Nat)) (hB : IsBuffer B) :
    bufferOfBytes (bufferBytes B) = B := by
  apply List.ext_getElem?
  intro i
  by_cases hi : i < BUFSIZE
  · have hiB : i < B.length := by rw [hB.1]; exact hi
    rw [getElem?_bufferOfBytes _ i hi, List.getElem?_eq_getElem hiB]
    congr 1
    have hfr := hB.2 B[i] (List.getElem_mem hiB)
    apply List.ext_getElem?
    intro c
    by_cases hc : c < CHANNELS
    · have hcB : c < B[i].length := by rw [hfr.1]; exact hc
      rw [List.getElem?_map, List.getElem?_range hc, Option.map_some',
        slice_bufferBytes B (fun fr h => (hB.2 fr h).1) i c B[i] (B[i][c])
          (List.getElem?_eq_getElem hiB) (List.getElem?_eq_getElem hcB),
        floatOfBytes_bytesOfFloat _ (hfr.2 _ (List.getElem_mem hcB)),
        List.getElem?_eq_getElem hcB]
    · rw [List.getElem?_eq_none (by simp; omega), List.getElem?_eq_none (by rw [hfr.1]; omega)]
  · rw [List.getElem?_eq_none (by rw [length_bufferOfBytes]; omega),
      List.getElem?_eq_none (by rw [hB.1]; omega)]

theorem read_full (data : List Nat) (B : List (List Nat)) (h : sizeofBuffer ≤ data.length) :
    read data B = bufferOfBytes data := by
  unfold read
  apply bufferOfBytes_congr
  rw [List.take_append_of_le_length (by rw [List.length_take]; omega), List.take_take,
    Nat.min_self]

theorem read_frame_within (data : List Nat) (B : List (List Nat)) (i : Nat) (hi : i < BUFSIZE)
    (h : sizeofFloat * CHANNELS * (i + 1) ≤ data.length) :
    (read data B)[i]? = (bufferOfBytes data)[i]? := by
  unfold read
  apply frame_bufferOfBytes_congr _ _ i hi
  intro c hc
  apply slice_eq_of_take_eq _ _ (sizeofFloat * CHANNELS * (i + 1))
  · rw [List.take_append_of_le_length, List.take_take, Nat.min_eq_left]
    · simp only [sizeofBuffer, sizeofFloat, BUFSIZE, CHANNELS] at *
      omega
    · rw [List.length_take]
      simp only [sizeofBuffer, sizeofFloat, BUFSIZE, CHANNELS] at *
      omega
  · simp only [sizeofBuffer, sizeofFloat, BUFSIZE, CHANNELS] at *
    omega

theorem read_frame_beyond (data : List Nat) (B : List (List Nat)) (hB : IsBuffer B) (i : Nat)
    (hi : i < BUFSIZE) (h : data.length ≤ sizeofFloat * CHANNELS * i) :
    (read data B)[i]? = B[i]? := by
  have hk : data.length ≤ sizeofBuffer := by
    simp only [sizeofBuffer, sizeofFloat, BUFSIZE, CHANNELS] at *
    omega
  conv_rhs => rw [← bufferOfBytes_bufferBytes B hB]
  unfold read
  apply frame_bufferOfBytes_congr _ _ i hi
  intro c hc
  rw [List.take_of_length_le hk, Nat.min_eq_left hk]
  have hoff : sizeofFloat * (i * CHANNELS + c) = data.length
      + (sizeofFloat * (i * CHANNELS + c) - data.length) := by
    simp only [sizeofBuffer, sizeofFloat, BUFSIZE, CHANNELS] at *
    omega
  rw [hoff, List.drop_append, List.drop_drop, ← hoff]

theorem length_flatMap_const {α β : Type} (g : α → List β) (n : Nat) (xs : List α)
    (hg : ∀ x ∈ xs, (g x).length = n) : (xs.flatMap g).length = n * xs.length := by
  induction xs with
  | nil => simp
  | cons x xs ih =>
    rw [List.flatMap_cons, List.length_append, hg x (List.mem_cons_self _ _),
      ih (fun y hy => hg y (List.mem_cons_of_mem _ hy)), List.length_cons, Nat.mul_succ,
      Nat.add_comm]

theorem length_bufferBytes (B : List (List Nat)) (hlen : B.length = BUFSIZE)
    (hfr : ∀ fr ∈ B, fr.length = CHANNELS) : (bufferBytes B).length = sizeofBuffer := by
  unfold bufferBytes
  rw [length_flatMap_const bytesOfFloat sizeofFloat _ (fun _ _ => rfl), flatten_eq_flatMap,
    length_flatMap_const id CHANNELS B hfr, hlen, sizeofBuffer, Nat.mul_comm BUFSIZE CHANNELS,
    Nat.mul_comm _ sizeofFloat]

theorem processBlock_map (B : List (List Nat)) (hlen : B.length = BUFSIZE)
    (hfr : ∀ fr ∈ B, fr.length = CHANNELS) :
    processBlock B = B.map fun fr => fr.map transform := by
  rw [processBlock_eq_map B hlen]
  apply List.map_congr_left
  intro fr h
  exact f_eq_map fr (hfr fr h)

theorem processBlock_read (data : List Nat) (B : List (List Nat)) :
    processBlock (read data B) = (read data B).map fun fr => fr.map transform :=
  processBlock_map _ (length_bufferOfBytes _) (fun fr h => length_frame_bufferOfBytes _ fr h)

theorem iteration_fst (B : List (List Nat)) (data : List Nat) :
    (iteration B data).1 = (read data B).map fun fr => fr.map transform := by
  simp only [iteration]
  exact processBlock_read data B

theorem length_iteration_fst (B : List (List Nat)) (data : List Nat) :
    (iteration B data).1.length = BUFSIZE := by
  rw [iteration_fst, List.length_map]
  exact length_bufferOfBytes _

theorem length_frame_iteration_fst (B : List (List Nat)) (data : List Nat) (fr : List Nat)
    (h : fr ∈ (iteration B data).1) : fr.length = CHANNELS := by
  rw [iteration_fst, List.mem_map] at h
  obtain ⟨fr0, h0, rfl⟩ := h
  rw [List.length_map]
  exact length_frame_bufferOfBytes _ fr0 h0

theorem iteration_snd (B : List (List Nat)) (data : List Nat) :
    (iteration B data).2 = bufferBytes (iteration B data).1 := by
  have h := length_bufferBytes (iteration B data).1 (length_iteration_fst B data)
    (length_frame_iteration_fst B data)
  have h2 : (iteration B data).2 = (bufferBytes (iteration B data).1).take sizeofBuffer := by
    simp only [iteration, write]
  rw [h2, List.take_of_length_le (Nat.le_of_eq h)]

theorem length_iteration_snd (B : List (List Nat)) (data : List Nat) :
    (iteration B data).2.length = sizeofBuffer := by
  rw [iteration_snd]
  exact length_bufferBytes _ (length_iteration_fst B data) (length_frame_iteration_fst B data)

theorem iteration_full (B : List (List Nat)) (data : List Nat)
    (h : sizeofBuffer ≤ data.length) :
    iteration B data = ((bufferOfBytes data).map fun fr => fr.map transform,
      blockTransform data) := by
  have h1 : (iteration B data).1 = (bufferOfBytes data).map fun fr => fr.map transform := by
    rw [iteration_fst, read_full data B h]
  have h2 : (iteration B data).2 = blockTransform data := by
    rw [iteration_snd, h1, blockTransform]
  rw [← h1, ← h2]

theorem bitLengthAux_spec (fuel n : Nat) (h : n ≤ fuel) :
    n < 2 ^ bitLengthAux fuel n ∧ (n ≠ 0 → 2 ^ bitLengthAux fuel n ≤ 2 * n) := by
  induction fuel generalizing n with
  | zero =>
    have : n = 0 := Nat.le_zero.mp h
    subst this
    simp [bitLengthAux]
  | succ fuel ih =>
    unfold bitLengthAux
    by_cases hn : n = 0
    · simp [hn]
    · rw [if_neg hn]
      obtain ⟨h1, h2⟩ := ih (n / 2) (by omega)
      refine ⟨?_, fun _ => ?_⟩
      · rw [Nat.pow_succ]; omega
      · rw [Nat.pow_succ]
        by_cases hn2 : n / 2 = 0
        · have hL : bitLengthAux fuel (n / 2) = 0 := by
            rw [hn2]; cases fuel <;> simp [bitLengthAux]
          rw [hL]; omega
        · have := h2 hn2
          omega

theorem lt_pow_bitLength (n : Nat) : n < 2 ^ bitLength n :=
  (bitLengthAux_spec n n (Nat.le_refl n)).1

theorem pow_bitLength_le (n : Nat) (h : n ≠ 0) : 2 ^ bitLength n ≤ 2 * n :=
  (bitLengthAux_spec n n (Nat.le_refl n)).2 h

theorem two_pow_pred (p : Nat) (hp : 1 ≤ p) : 2 ^ p = 2 * 2 ^ (p - 1) := by
  obtain ⟨k, rfl⟩ : ∃ k, p = k + 1 := ⟨p - 1, by omega⟩
  rw [Nat.add_sub_cancel, Nat.pow_succ, Nat.mul_comm]

theorem roundFin_canonical (fmt : Format) (hp : 1 ≤ fmt.prec) (hrange : fmt.emin ≤ fmt.emax)
    (neg : Bool) (m : Nat) (e : Int) : Canonical fmt (roundFin fmt neg m e) := by
  unfold roundFin
  by_cases hm : m = 0
  · rw [if_pos hm]
    exact ⟨Nat.pos_pow_of_pos _ (by omega), le_refl _, hrange, fun _ => rfl⟩
  · rw [if_neg hm]
    have hL1 := lt_pow_bitLength m
    have hL2 := pow_bitLength_le m hm
    generalize bitLength m = L at *
    dsimp only
    have hmax1 : e + (L : Int) - (fmt.prec : Int) ≤ max (e + (L : Int) - (fmt.prec : Int)) fmt.emin :=
      le_max_left _ _
    have hmax2 : fmt.emin ≤ max (e + (L : Int) - (fmt.prec : Int)) fmt.emin := le_max_right _ _
    have hmax3 : max (e + (L : Int) - (fmt.prec : Int)) fmt.emin ≠ fmt.emin →
        max (e + (L : Int) - (fmt.prec : Int)) fmt.emin = e + (L : Int) - (fmt.prec : Int) := by
      intro h
      rcases max_choice (e + (L : Int) - (fmt.prec : Int)) fmt.emin with h' | h'
      · exact h'
      · exact absurd h' h
    generalize max (e + (L : Int) - (fmt.prec : Int)) fmt.emin = e1 at *
    have hpp := two_pow_pred fmt.prec hp
    have hpos : 0 < 2 ^ (fmt.prec - 1) := Nat.pos_pow_of_pos _ (by omega)
    by_cases hexact : e1 ≤ e
    · rw [if_pos hexact]
      by_cases hov : fmt.emax < e1
      · rw [if_pos hov]; trivial
      · rw [if_neg hov]
        obtain ⟨k, hk⟩ : ∃ k : Nat, (k : Int) = e - e1 := ⟨(e - e1).toNat, by omega⟩
        have hk' : (e - e1).toNat = k := by omega
        rw [hk']
        have hLk : L + k ≤ fmt.prec := by omega
        have h1 : m * 2 ^ k < 2 ^ L * 2 ^ k :=
          Nat.mul_lt_mul_of_pos_right hL1 (Nat.pos_pow_of_pos _ (by omega))
        have h2 : 2 ^ L * 2 ^ k ≤ 2 ^ fmt.prec := by
          rw [← Nat.pow_add]; exact Nat.pow_le_pow_right (by omega) hLk
        refine ⟨by omega, hmax2, by omega, fun hsmall => ?_⟩
        by_contra hne
        have he1 := hmax3 hne
        have hLk' : L + k = fmt.prec := by omega
        have h3 : 2 ^ L * 2 ^ k = 2 ^ fmt.prec := by rw [← Nat.pow_add, hLk']
        have h4 : 2 ^ L * 2 ^ k ≤ 2 * m * 2 ^ k := Nat.mul_le_mul_right _ hL2
        have h5 : 2 * m * 2 ^ k = 2 * (m * 2 ^ k) := Nat.mul_assoc _ _ _
        omega
    · rw [if_neg hexact]
      obtain ⟨sh, hsh⟩ : ∃ sh : Nat, (sh : Int) = e1 - e := ⟨(e1 - e).toNat, by omega⟩
      have hsh' : (e1 - e).toNat = sh := by omega
      rw [hsh']
      have hLs : L ≤ fmt.prec + sh := by omega
      have hq : m / 2 ^ sh < 2 ^ fmt.prec := by
        apply Nat.div_lt_of_lt_mul
        calc m < 2 ^ L := hL1
          _ ≤ 2 ^ (fmt.prec + sh) := Nat.pow_le_pow_right (by omega) hLs
          _ = 2 ^ sh * 2 ^ fmt.prec := by rw [Nat.pow_add, Nat.mul_comm]
      have hq1 : ∀ q1 : Nat, q1 = m / 2 ^ sh ∨ q1 = m / 2 ^ sh + 1 →
          Canonical fmt (if q1 = 2 ^ fmt.prec then
            if fmt.emax < e1 + 1 then FP.inf neg else FP.fin neg (2 ^ (fmt.prec - 1)) (e1 + 1)
          else if fmt.emax < e1 then FP.inf neg else FP.fin neg q1 e1) := by
        intro q1 hq1
        by_cases hc : q1 = 2 ^ fmt.prec
        · rw [if_pos hc]
          by_cases hov : fmt.emax < e1 + 1
          · rw [if_pos hov]; trivial
          · rw [if_neg hov]
            exact ⟨by omega, by omega, by omega, fun h => absurd h (lt_irrefl _)⟩
        · rw [if_neg hc]
          by_cases hov : fmt.emax < e1
          · rw [if_pos hov]; trivial
          · rw [if_neg hov]
            refine ⟨by omega, hmax2, by omega, fun hsmall => ?_⟩
            by_contra hne
            have he1 := hmax3 hne
            have hLs' : L = fmt.prec + sh := by omega
            have h3 : 2 ^ (fmt.prec - 1) ≤ m / 2 ^ sh := by
              rw [Nat.le_div_iff_mul_le (Nat.pos_pow_of_pos _ (by omega))]
              have h4 : 2 ^ L = 2 * (2 ^ (fmt.prec - 1) * 2 ^ sh) := by
                rw [hLs', Nat.pow_add, hpp, Nat.mul_assoc]
              omega
            omega
      by_cases hup : 2 ^ (sh - 1) < m % 2 ^ sh ∨
          (m % 2 ^ sh = 2 ^ (sh - 1) ∧ m / 2 ^ sh % 2 = 1)
      · rw [if_pos hup]; exact hq1 _ (Or.inr rfl)
      · rw [if_neg hup]; exact hq1 _ (Or.inl rfl)

theorem convert_canonical (fmt : Format) (hp : 1 ≤ fmt.prec) (hrange : fmt.emin ≤ fmt.emax)
    (x : FP) : Canonical fmt (convert fmt x) := by
  cases x with
  | nan => trivial
  | inf neg => trivial
  | fin neg m e => exact roundFin_canonical fmt hp hrange neg m e

theorem encode32_lt (x : FP) (h : Canonical binary32 x) : encode32 x < 2 ^ 32 := by
  cases x with
  | nan => simp [encode32]
  | inf neg => cases neg <;> simp [encode32]
  | fin neg m e =>
    obtain ⟨h1, h2, h3, _⟩ := h
    simp only [binary32] at h1 h2 h3
    simp only [encode32]
    have h5 : (e + 150).toNat ≤ 254 := by omega
    have h6 : (e + 150).toNat * 2 ^ 23 ≤ 254 * 2 ^ 23 := Nat.mul_le_mul_right _ h5
    norm_num at h1 h6 ⊢
    split_ifs <;> omega

theorem transform_lt (w : Nat) : transform w < 2 ^ 32 :=
  encode32_lt _ (convert_canonical binary32 (by decide) (by decide) _)

theorem isBuffer_constBuffer (w : Nat) (h : w < 2 ^ 32) : IsBuffer (constBuffer w) := by
  refine ⟨List.length_replicate _ _, fun fr hfr => ?_⟩
  rw [List.eq_of_mem_replicate hfr]
  refine ⟨List.length_replicate _ _, fun x hx => ?_⟩
  rw [List.eq_of_mem_replicate hx]
  exact h

theorem map_constBuffer (w : Nat) :
    ((constBuffer w).map fun fr => fr.map transform) = constBuffer (transform w) := by
  simp [constBuffer, List.map_replicate]

theorem isBuffer_iteration_fst (B : List (List Nat)) (data : List Nat) :
    IsBuffer (iteration B data).1 := by
  refine ⟨length_iteration_fst B data, fun fr hfr => ⟨length_frame_iteration_fst B data fr hfr, ?_⟩⟩
  rw [iteration_fst, List.mem_map] at hfr
  obtain ⟨fr0, _, rfl⟩ := hfr
  intro w hw
  rw [List.mem_map] at hw
  obtain ⟨w0, _, rfl⟩ := hw
  exact transform_lt w0

theorem iteration_constBlock (B : List (List Nat)) (w : Nat) (h : w < 2 ^ 32) :
    iteration B (constBlock w) = (constBuffer (transform w), constBlock (transform w)) := by
  have hlen : sizeofBuffer ≤ (constBlock w).length := by
    rw [constBlock, length_bufferBytes _ (isBuffer_constBuffer w h).1
      (fun fr hfr => ((isBuffer_constBuffer w h).2 fr hfr).1)]
  rw [iteration_full B _ hlen, blockTransform, constBlock,
    bufferOfBytes_bufferBytes _ (isBuffer_constBuffer w h), map_constBuffer, constBlock]

theorem read_nil (B : List (List Nat)) (hB : IsBuffer B) : read [] B = B := by
  apply List.ext_getElem?
  intro i
  by_cases hi : i < BUFSIZE
  · exact read_frame_beyond [] B hB i hi (Nat.zero_le _)
  · rw [List.getElem?_eq_none (by rw [read, length_bufferOfBytes]; omega),
      List.getElem?_eq_none (by rw [hB.1]; omega)]

theorem iteration_nil_constBuffer (w : Nat) (h : w < 2 ^ 32) :
    iteration (constBuffer w) [] = (constBuffer (transform w), constBlock (transform w)) := by
  have h1 : (iteration (constBuffer w) []).1 = constBuffer (transform w) := by
    rw [iteration_fst, read_nil _ (isBuffer_constBuffer w h), map_constBuffer]
  have h2 : (iteration (constBuffer w) []).2 = constBlock (transform w) := by
    rw [iteration_snd, h1, constBlock]
  rw [← h1, ← h2]

theorem sampleAt_constBuffer (w i c : Nat) (hi : i < BUFSIZE) (hc : c < CHANNELS) :
    sampleAt (constBuffer w) i c = some w := by
  simp only [sampleAt, constBuffer, List.getElem?_replicate, if_pos hi, Option.some_bind,
    if_pos hc]

theorem constBlock_injective (a b : Nat) (ha : a < 2 ^ 32) (hb : b < 2 ^ 32)
    (h : constBlock a = constBlock b) : a = b := by
  have h1 := congrArg bufferOfBytes h
  rw [constBlock, constBlock, bufferOfBytes_bufferBytes _ (isBuffer_constBuffer a ha),
    bufferOfBytes_bufferBytes _ (isBuffer_constBuffer b hb)] at h1
  have h2 := congrArg (fun B => sampleAt B 0 0) h1
  simp only [sampleAt_constBuffer _ 0 0 (by decide) (by decide)] at h2
  exact Option.some.inj h2

theorem flatMap_flatten {α β : Type} (g : α → List β) (B : List (List α)) :
    B.flatten.flatMap g = B.flatMap fun fr => fr.flatMap g := by
  induction B with
  | nil => rfl
  | cons x xs ih => simp [List.flatMap_cons, List.flatMap_append, ih]

theorem frameBytes_bufferBytes (B : List (List Nat)) (hB : ∀ fr ∈ B, fr.length = CHANNELS)
    (i : Nat) (fr : List Nat) (hfr : B[i]? = some fr) :
    frameBytes (bufferBytes B) i = fr.flatMap bytesOfFloat := by
  have h8 : ∀ x ∈ B, (x.flatMap bytesOfFloat).length = sizeofFloat * CHANNELS := by
    intro x hx
    rw [length_flatMap_const bytesOfFloat sizeofFloat x (fun _ _ => rfl), hB x hx]
  have hlen : (fr.flatMap bytesOfFloat).length = sizeofFloat * CHANNELS :=
    h8 fr (by obtain ⟨h, rfl⟩ := List.getElem?_eq_some_iff.mp hfr; exact List.getElem_mem h)
  unfold frameBytes bufferBytes
  rw [flatMap_flatten, drop_flatMap _ (sizeofFloat * CHANNELS) i B h8,
    drop_eq_cons_of_getElem? B i fr hfr, List.flatMap_cons, ← hlen, List.take_left]

theorem round_quotient_bounds (m sh : Nat) :
    (∀ B : Nat, m ≤ B * 2 ^ sh →
      (if 2 ^ (sh - 1) < m % 2 ^ sh ∨ (m % 2 ^ sh = 2 ^ (sh - 1) ∧ m / 2 ^ sh % 2 = 1)
        then m / 2 ^ sh + 1 else m / 2 ^ sh) ≤ B) ∧
    (∀ A : Nat, A * 2 ^ sh ≤ m →
      A ≤ (if 2 ^ (sh - 1) < m % 2 ^ sh ∨ (m % 2 ^ sh = 2 ^ (sh - 1) ∧ m / 2 ^ sh % 2 = 1)
        then m / 2 ^ sh + 1 else m / 2 ^ sh)) := by
  have hP : 0 < 2 ^ sh := Nat.pos_pow_of_pos _ (by omega)
  have hhalf : 0 < 2 ^ (sh - 1) := Nat.pos_pow_of_pos _ (by omega)
  have hdm := Nat.div_add_mod m (2 ^ sh)
  constructor
  · intro B hB
    have hqB : m / 2 ^ sh ≤ B := by
      apply Nat.div_le_of_le_mul
      rw [Nat.mul_comm]; exact hB
    by_cases hup : 2 ^ (sh - 1) < m % 2 ^ sh ∨ (m % 2 ^ sh = 2 ^ (sh - 1) ∧ m / 2 ^ sh % 2 = 1)
    · rw [if_pos hup]
      have hr : 0 < m % 2 ^ sh := by
        rcases hup with h | h
        · omega
        · omega
      by_contra hcon
      have hq : m / 2 ^ sh = B := by omega
      rw [hq] at hdm
      rw [Nat.mul_comm] at hdm
      omega
    · rw [if_neg hup]; exact hqB
  · intro A hA
    have hAq : A ≤ m / 2 ^ sh := (Nat.le_div_iff_mul_le hP).mpr hA
    split_ifs <;> omega

/-- The rounding step of `roundFin` is to nearest, ties to even: the rounded
quotient lies within half a unit of `m / 2 ^ sh`, and is even on a tie. -/
theorem round_quotient_nearest (m sh : Nat) (hsh : 1 ≤ sh) :
    (if 2 ^ (sh - 1) < m % 2 ^ sh ∨ (m % 2 ^ sh = 2 ^ (sh - 1) ∧ m / 2 ^ sh % 2 = 1)
        then m / 2 ^ sh + 1 else m / 2 ^ sh) * 2 ^ sh ≤ m + 2 ^ (sh - 1) ∧
    m ≤ (if 2 ^ (sh - 1) < m % 2 ^ sh ∨ (m % 2 ^ sh = 2 ^ (sh - 1) ∧ m / 2 ^ sh % 2 = 1)
        then m / 2 ^ sh + 1 else m / 2 ^ sh) * 2 ^ sh + 2 ^ (sh - 1) ∧
    (m % 2 ^ sh = 2 ^ (sh - 1) →
      (if 2 ^ (sh - 1) < m % 2 ^ sh ∨ (m % 2 ^ sh = 2 ^ (sh - 1) ∧ m / 2 ^ sh % 2 = 1)
        then m / 2 ^ sh + 1 else m / 2 ^ sh) % 2 = 0) := by
  have hP : 2 ^ sh = 2 * 2 ^ (sh - 1) := two_pow_pred sh hsh
  have hdm := Nat.div_add_mod m (2 ^ sh)
  have hr : m % 2 ^ sh < 2 ^ sh := Nat.mod_lt _ (Nat.pos_pow_of_pos _ (by omega))
  rw [Nat.mul_comm] at hdm
  generalize m / 2 ^ sh = q at *
  generalize m % 2 ^ sh = r at *
  generalize 2 ^ (sh - 1) = half at *
  generalize 2 ^ sh = P at *
  by_cases hup : half < r ∨ (r = half ∧ q % 2 = 1)
  · rw [if_pos hup]
    have hq : (q + 1) * P = q * P + P := by rw [Nat.add_mul, Nat.one_mul]
    refine ⟨by omega, by omega, fun htie => ?_⟩
    rcases hup with h | h
    · omega
    · omega
  · rw [if_neg hup]
    have hle : r ≤ half := by
      by_contra hcon
      exact hup (Or.inl (by omega))
    refine ⟨by omega, by omega, fun htie => ?_⟩
    by_contra hodd
    exact hup (Or.inr ⟨htie, by omega⟩)

theorem two_zpow_pos (e : Int) : (0 : ℚ) < 2 ^ e := zpow_pos (by norm_num) e

theorem scale_le_iff (m b : Nat) (e g : Int) (n : Nat) (h : g = e + n) :
    ((m : ℚ) * 2 ^ e ≤ (b : ℚ) * 2 ^ g) ↔ m ≤ b * 2 ^ n := by
  have h2 : (2 : ℚ) ^ g = 2 ^ n * 2 ^ e := by
    rw [h, zpow_add₀ (by norm_num : (2 : ℚ) ≠ 0), zpow_natCast, mul_comm]
  rw [h2, ← mul_assoc, mul_le_mul_right (two_zpow_pos e)]
  constructor
  · intro h'
    have : ((m : ℕ) : ℚ) ≤ ((b * 2 ^ n : ℕ) : ℚ) := by push_cast; exact h'
    exact Nat.cast_le.mp this
  · intro h'
    have : ((m : ℕ) : ℚ) ≤ ((b * 2 ^ n : ℕ) : ℚ) := Nat.cast_le.mpr h'
    push_cast at this; exact this

theorem scale_ge_iff (a m : Nat) (e g : Int) (n : Nat) (h : g = e + n) :
    ((a : ℚ) * 2 ^ g ≤ (m : ℚ) * 2 ^ e) ↔ a * 2 ^ n ≤ m := by
  have h2 : (2 : ℚ) ^ g = 2 ^ n * 2 ^ e := by
    rw [h, zpow_add₀ (by norm_num : (2 : ℚ) ≠ 0), zpow_natCast, mul_comm]
  rw [h2, ← mul_assoc, mul_le_mul_right (two_zpow_pos e)]
  constructor
  · intro h'
    have : ((a * 2 ^ n : ℕ) : ℚ) ≤ ((m : ℕ) : ℚ) := by push_cast; exact h'
    exact Nat.cast_le.mp this
  · intro h'
    have : ((a * 2 ^ n : ℕ) : ℚ) ≤ ((m : ℕ) : ℚ) := Nat.cast_le.mpr h'
    push_cast at this; exact this

theorem scale_eq (m : Nat) (e g : Int) (n : Nat) (h : e = g + n) :
    ((m * 2 ^ n : ℕ) : ℚ) * 2 ^ g = (m : ℚ) * 2 ^ e := by
  rw [h, zpow_add₀ (by norm_num : (2 : ℚ) ≠ 0), zpow_natCast]
  push_cast
  ring

/-- Rounding against a grid: when the exact value `m * 2^e` is at most
`b0 * 2^g` for a significand `b0` and an exponent `g` of the format, the rounded
datum is finite, and no multiple of `2^g` lies strictly between the exact value
and the value of the rounded datum. -/
theorem roundFin_grid (fmt : Format) (hp : 1 ≤ fmt.prec) (neg : Bool) (m : Nat) (e : Int)
    (g : Int) (b0 : Nat) (hg1 : fmt.emin ≤ g) (hg2 : g ≤ fmt.emax) (hb0 : b0 < 2 ^ fmt.prec)
    (hle : (m : ℚ) * 2 ^ e ≤ (b0 : ℚ) * 2 ^ g) :
    ∃ (m' : Nat) (e' : Int), roundFin fmt neg m e = FP.fin neg m' e' ∧
      (∀ b : Nat, (m : ℚ) * 2 ^ e ≤ (b : ℚ) * 2 ^ g → (m' : ℚ) * 2 ^ e' ≤ (b : ℚ) * 2 ^ g) ∧
      (∀ a : Nat, (a : ℚ) * 2 ^ g ≤ (m : ℚ) * 2 ^ e → (a : ℚ) * 2 ^ g ≤ (m' : ℚ) * 2 ^ e') := by
  unfold roundFin
  by_cases hm : m = 0
  · rw [if_pos hm]
    refine ⟨0, fmt.emin, rfl, fun b _ => ?_, fun a ha => ?_⟩
    · rw [Nat.cast_zero, zero_mul]
      exact mul_nonneg (Nat.cast_nonneg b) (le_of_lt (two_zpow_pos g))
    · rw [hm, Nat.cast_zero, zero_mul] at ha
      rw [Nat.cast_zero, zero_mul]; exact ha
  · rw [if_neg hm]
    have hL1 := lt_pow_bitLength m
    have hL2 := pow_bitLength_le m hm
    generalize bitLength m = L at *
    dsimp only
    -- the exponent of the last place lies on or below the grid exponent
    have hLg : e + (L : Int) - (fmt.prec : Int) ≤ g := by
      have h1 : ((2 ^ L : ℕ) : ℚ) ≤ ((2 * m : ℕ) : ℚ) := Nat.cast_le.mpr hL2
      have h2 : ((b0 : ℕ) : ℚ) < ((2 ^ fmt.prec : ℕ) : ℚ) := Nat.cast_lt.mpr hb0
      push_cast at h1 h2
      have h3 : (2 : ℚ) ^ ((L : Int) + e) < 2 ^ (1 + (fmt.prec : Int) + g) := by
        rw [zpow_add₀ (by norm_num : (2 : ℚ) ≠ 0), zpow_add₀ (by norm_num : (2 : ℚ) ≠ 0),
          zpow_add₀ (by norm_num : (2 : ℚ) ≠ 0), zpow_natCast, zpow_natCast, zpow_one]
        have he := two_zpow_pos e
        have hgpos := two_zpow_pos g
        calc (2 : ℚ) ^ L * 2 ^ e ≤ 2 * (m : ℚ) * 2 ^ e :=
              mul_le_mul_of_nonneg_right h1 (le_of_lt he)
          _ = 2 * ((m : ℚ) * 2 ^ e) := by ring
          _ ≤ 2 * ((b0 : ℚ) * 2 ^ g) := by linarith
          _ < 2 * ((2 : ℚ) ^ fmt.prec * 2 ^ g) := by
              have := mul_lt_mul_of_pos_right h2 hgpos
              linarith
          _ = 2 * 2 ^ fmt.prec * 2 ^ g := by ring
      have h4 := (zpow_lt_zpow_iff_right₀ (by norm_num : (1 : ℚ) < 2)).mp h3
      omega
    have hmax2 : fmt.emin ≤ max (e + (L : Int) - (fmt.prec : Int)) fmt.emin := le_max_right _ _
    have hmax3 : max (e + (L : Int) - (fmt.prec : Int)) fmt.emin ≤ g := max_le hLg hg1
    generalize max (e + (L : Int) - (fmt.prec : Int)) fmt.emin = e1 at *
    by_cases hexact : e1 ≤ e
    · rw [if_pos hexact, if_neg (by omega)]
      obtain ⟨k, hk⟩ : ∃ k : Nat, (k : Int) = e - e1 := ⟨(e - e1).toNat, by omega⟩
      have hk' : (e - e1).toNat = k := by omega
      rw [hk']
      have hv := scale_eq m e e1 k (by omega)
      refine ⟨m * 2 ^ k, e1, rfl, fun b hb => ?_, fun a ha => ?_⟩
      · rw [hv]; exact hb
      · rw [hv]; exact ha
    · rw [if_neg hexact]
      obtain ⟨sh, hsh⟩ : ∃ sh : Nat, (sh : Int) = e1 - e := ⟨(e1 - e).toNat, by omega⟩
      have hsh' : (e1 - e).toNat = sh := by omega
      obtain ⟨d, hd⟩ : ∃ d : Nat, (d : Int) = g - e1 := ⟨(g - e1).toNat, by omega⟩
      rw [hsh']
      obtain ⟨hup, hlo⟩ := round_quotient_bounds m sh
      generalize (if 2 ^ (sh - 1) < m % 2 ^ sh ∨ (m % 2 ^ sh = 2 ^ (sh - 1) ∧ m / 2 ^ sh % 2 = 1)
        then m / 2 ^ sh + 1 else m / 2 ^ sh) = q1 at *
      -- bounds on `q1` from bounds on the exact value
      have hupQ : ∀ b : Nat, (m : ℚ) * 2 ^ e ≤ (b : ℚ) * 2 ^ g →
          (q1 : ℚ) * 2 ^ e1 ≤ (b : ℚ) * 2 ^ g := by
        intro b hb
        have h1 := (scale_le_iff m b e g (d + sh) (by push_cast; omega)).mp hb
        have h2 : q1 ≤ b * 2 ^ d := hup _ (by rw [Nat.mul_assoc, ← Nat.pow_add]; exact h1)
        exact (scale_le_iff q1 b e1 g d (by omega)).mpr h2
      have hloQ : ∀ a : Nat, (a : ℚ) * 2 ^ g ≤ (m : ℚ) * 2 ^ e →
          (a : ℚ) * 2 ^ g ≤ (q1 : ℚ) * 2 ^ e1 := by
        intro a ha
        have h1 := (scale_ge_iff a m e g (d + sh) (by push_cast; omega)).mp ha
        have h2 : a * 2 ^ d ≤ q1 := hlo _ (by rw [Nat.mul_assoc, ← Nat.pow_add]; exact h1)
        exact (scale_ge_iff a q1 e1 g d (by omega)).mpr h2
      by_cases hc : q1 = 2 ^ fmt.prec
      · rw [if_pos hc]
        -- a carry can only happen strictly below the grid exponent
        have hd1 : 1 ≤ d := by
          have h1 := (scale_le_iff m b0 e g (d + sh) (by push_cast; omega)).mp hle
          have h2 : q1 ≤ b0 * 2 ^ d := hup _ (by rw [Nat.mul_assoc, ← Nat.pow_add]; exact h1)
          by_contra hd0
          have : d = 0 := by omega
          rw [this, Nat.pow_zero, Nat.mul_one] at h2
          omega
        rw [if_neg (by omega)]
        have hv : ((2 ^ (fmt.prec - 1) : ℕ) : ℚ) * 2 ^ (e1 + 1) = (q1 : ℚ) * 2 ^ e1 := by
          rw [hc, two_pow_pred fmt.prec hp, zpow_add₀ (by norm_num : (2 : ℚ) ≠ 0), zpow_one]
          push_cast
          ring
        refine ⟨2 ^ (fmt.prec - 1), e1 + 1, rfl, fun b hb => ?_, fun a ha => ?_⟩
        · rw [hv]; exact hupQ b hb
        · rw [hv]; exact hloQ a ha
      · rw [if_neg hc, if_neg (by omega)]
        exact ⟨q1, e1, rfl, hupQ, hloQ⟩

theorem roundFin_exact (fmt : Format) (hp : 1 ≤ fmt.prec) (neg : Bool) (m : Nat) (e : Int)
    (m0 : Nat) (e0 : Int) (hm0 : m0 < 2 ^ fmt.prec) (h1 : fmt.emin ≤ e0) (h2 : e0 ≤ fmt.emax)
    (hv : (m : ℚ) * 2 ^ e = (m0 : ℚ) * 2 ^ e0) :
    ∃ (m' : Nat) (e' : Int), roundFin fmt neg m e = FP.fin neg m' e' ∧
      (m' : ℚ) * 2 ^ e' = (m : ℚ) * 2 ^ e := by
  obtain ⟨m', e', hr, hup, hlo⟩ :=
    roundFin_grid fmt hp neg m e e0 m0 h1 h2 hm0 (le_of_eq hv)
  refine ⟨m', e', hr, le_antisymm ?_ ?_⟩
  · rw [hv]; exact hup m0 (le_of_eq hv)
  · rw [hv]; exact hlo m0 (le_of_eq hv.symm)

theorem roundFin_le_one (fmt : Format) (hp : 1 ≤ fmt.prec) (neg : Bool) (m : Nat) (e : Int)
    (h1 : fmt.emin ≤ 0) (h2 : 0 ≤ fmt.emax) (hv : (m : ℚ) * 2 ^ e ≤ 1) :
    ∃ (m' : Nat) (e' : Int), roundFin fmt neg m e = FP.fin neg m' e' ∧
      (m' : ℚ) * 2 ^ e' ≤ 1 := by
  have h1p : 1 < 2 ^ fmt.prec := Nat.one_lt_two_pow (by omega)
  have hv' : (m : ℚ) * 2 ^ e ≤ ((1 : ℕ) : ℚ) * 2 ^ (0 : Int) := by
    rw [Nat.cast_one, zpow_zero, mul_one]; exact hv
  obtain ⟨m', e', hr, hup, _⟩ := roundFin_grid fmt hp neg m e 0 1 h1 h2 h1p hv'
  refine ⟨m', e', hr, ?_⟩
  have := hup 1 hv'
  rw [Nat.cast_one, zpow_zero, mul_one] at this
  exact this

theorem decode32_fin (w : Nat) (neg : Bool) (m : Nat) (e : Int)
    (h : decode32 w = FP.fin neg m e) : m < 2 ^ 24 ∧ -149 ≤ e ∧ e ≤ 104 := by
  unfold decode32 at h
  dsimp only at h
  have hman : w % 2 ^ 23 < 2 ^ 23 := Nat.mod_lt _ (by norm_num)
  have hex : w / 2 ^ 23 % 256 < 256 := Nat.mod_lt _ (by norm_num)
  by_cases h255 : w / 2 ^ 23 % 256 = 255
  · rw [if_pos h255] at h
    split_ifs at h
  · rw [if_neg h255] at h
    by_cases h0 : w / 2 ^ 23 % 256 = 0
    · rw [if_pos h0] at h
      injection h with _ hm he
      subst hm he
      norm_num at hman ⊢
      omega
    · rw [if_neg h0] at h
      injection h with _ hm he
      subst hm he
      norm_num at hman ⊢
      omega

theorem decode32_encode32 (x : FP) (h : Canonical binary32 x) : decode32 (encode32 x) = x := by
  cases x with
  | nan => decide
  | inf neg => cases neg <;> decide
  | fin neg m e =>
    obtain ⟨h1, h2, h3, h4⟩ := h
    simp only [binary32] at h1 h2 h3 h4
    norm_num at h1 h4
    obtain ⟨E, hE⟩ : ∃ E : Nat, (E : Int) = e + 150 := ⟨(e + 150).toNat, by omega⟩
    have hE' : (e + 150).toNat = E := by omega
    obtain ⟨W, hW⟩ : ∃ W, encode32 (FP.fin neg m e) = W := ⟨_, rfl⟩
    rw [hW]
    simp only [encode32, hE'] at hW
    norm_num at hW
    unfold decode32
    dsimp only
    by_cases hsub : m < 8388608
    · have he := h4 hsub
      rw [if_pos hsub] at hW
      have a1 : W / 2 ^ 23 % 256 = 0 := by
        norm_num; cases neg <;> simp at hW <;> omega
      have a2 : W % 2 ^ 23 = m := by
        norm_num; cases neg <;> simp at hW <;> omega
      have a3 : decide (W / 2 ^ 31 % 2 = 1) = neg := by
        norm_num; cases neg <;> simp at hW ⊢ <;> omega
      rw [a1, a2, a3, if_neg (by decide), if_pos rfl, he]
    · rw [if_neg hsub] at hW
      have a1 : W / 2 ^ 23 % 256 = E := by
        norm_num; cases neg <;> simp at hW <;> omega
      have a2 : W % 2 ^ 23 = m - 8388608 := by
        norm_num; cases neg <;> simp at hW <;> omega
      have a3 : decide (W / 2 ^ 31 % 2 = 1) = neg := by
        norm_num; cases neg <;> simp at hW ⊢ <;> omega
      have a4 : 2 ^ 23 + (m - 8388608) = m := by norm_num; omega
      have a7 : (E : Int) - 150 = e := by omega
      rw [a1, a2, a3, a4, a7, if_neg (by omega), if_neg (by omega)]

theorem ofNat_two : ofNat binary64 2 = FP.fin false (2 ^ 52) (-51) := by decide

theorem ofNat_one : ofNat binary64 1 = FP.fin false (2 ^ 52) (-52) := by decide

theorem double_abs (w : Nat) (neg : Bool) (m : Nat) (e : Int)
    (hdec : decode32 w = FP.fin neg m e) :
    ∃ (m3 : Nat) (e3 : Int),
      mul binary64 (fabs (convert binary64 (decode32 w))) (ofNat binary64 2)
        = FP.fin false m3 e3 ∧
      (m3 : ℚ) * 2 ^ e3 = 2 * ((m : ℚ) * 2 ^ e) := by
  obtain ⟨hm, he1, he2⟩ := decode32_fin w neg m e hdec
  have hm53 : m < 2 ^ binary64.prec := by
    have : (2 : Nat) ^ 24 < 2 ^ 53 := by norm_num
    exact Nat.lt_trans hm this
  obtain ⟨m1, e1, h1, hv1⟩ := roundFin_exact binary64 (by decide) neg m e m e hm53
    (by show (-1074 : Int) ≤ e; omega) (by show e ≤ (971 : Int); omega) rfl
  have hv2 : ((m1 * 2 ^ 52 : ℕ) : ℚ) * 2 ^ (e1 + -51) = (m : ℚ) * 2 ^ (e + 1) := by
    rw [zpow_add₀ (by norm_num : (2 : ℚ) ≠ 0), zpow_add₀ (by norm_num : (2 : ℚ) ≠ 0), zpow_one]
    have h51 : (2 : ℚ) ^ (52 : ℕ) * 2 ^ (-51 : Int) = 2 := by norm_num [zpow_neg]
    push_cast
    calc (m1 : ℚ) * 2 ^ 52 * (2 ^ e1 * 2 ^ (-51 : Int))
        = ((m1 : ℚ) * 2 ^ e1) * ((2 : ℚ) ^ (52 : ℕ) * 2 ^ (-51 : Int)) := by ring
      _ = (m : ℚ) * 2 ^ e * 2 := by rw [hv1, h51]
      _ = (m : ℚ) * (2 ^ e * 2) := by ring
  obtain ⟨m3, e3, h3, hv3⟩ := roundFin_exact binary64 (by decide) false (m1 * 2 ^ 52)
    (e1 + -51) m (e + 1) hm53 (by show (-1074 : Int) ≤ e + 1; omega)
    (by show e + 1 ≤ (971 : Int); omega) hv2
  refine ⟨m3, e3, ?_, ?_⟩
  · rw [hdec, ofNat_two]
    show mul binary64 (fabs (roundFin binary64 neg m e)) (FP.fin false (2 ^ 52) (-51)) = _
    rw [h1]
    exact h3
  · rw [hv3, hv2, zpow_add₀ (by norm_num : (2 : ℚ) ≠ 0), zpow_one]
    ring

theorem sub_one (m3 : Nat) (e3 : Int) :
    ∃ (z : Int) (e' : Int), (z : ℚ) * 2 ^ e' = (m3 : ℚ) * 2 ^ e3 - 1 ∧
      sub binary64 (FP.fin false m3 e3) (ofNat binary64 1)
        = if z = 0 then FP.fin false 0 (-1074)
          else roundFin binary64 (decide (z < 0)) z.natAbs e' := by
  obtain ⟨k3, hk3⟩ : ∃ k : Nat, (k : Int) = e3 - min e3 (-52) :=
    ⟨(e3 - min e3 (-52)).toNat, by omega⟩
  obtain ⟨k1, hk1⟩ : ∃ k : Nat, (k : Int) = -52 - min e3 (-52) :=
    ⟨(-52 - min e3 (-52)).toNat, by omega⟩
  have hk3' : (e3 - min e3 (-52)).toNat = k3 := by omega
  have hk1' : (-52 - min e3 (-52)).toNat = k1 := by omega
  refine ⟨((m3 * 2 ^ k3 : ℕ) : Int) - ((2 ^ 52 * 2 ^ k1 : ℕ) : Int), min e3 (-52), ?_, ?_⟩
  · have a1 := scale_eq m3 e3 (min e3 (-52)) k3 (by omega)
    have a2 := scale_eq (2 ^ 52) (-52) (min e3 (-52)) k1 (by omega)
    have a3 : ((2 ^ 52 : ℕ) : ℚ) * 2 ^ (-52 : Int) = 1 := by norm_num [zpow_neg]
    rw [a3] at a2
    push_cast at a1 a2 ⊢
    rw [sub_mul, a1, a2]
  · rw [ofNat_one]
    simp only [sub, signed, hk3', hk1', Bool.false_eq_true, if_false, Bool.false_and]
    rfl

theorem sub_mul_convert (w : Nat) (neg : Bool) (m : Nat) (e : Int)
    (hdec : decode32 w = FP.fin neg m e) :
    ∃ (z : Int) (e' : Int), (z : ℚ) * 2 ^ e' = 2 * ((m : ℚ) * 2 ^ e) - 1 ∧
      transform w = encode32 (convert binary32
        (if z = 0 then FP.fin false 0 (-1074)
          else roundFin binary64 (decide (z < 0)) z.natAbs e')) := by
  obtain ⟨m3, e3, h3, hv3⟩ := double_abs w neg m e hdec
  obtain ⟨z, e', hz, hs⟩ := sub_one m3 e3
  refine ⟨z, e', by rw [hz, hv3], ?_⟩
  unfold transform
  rw [h3, hs]

theorem abs_signed (neg : Bool) (m : Nat) (e : Int) :
    |((signed neg m : Int) : ℚ) * 2 ^ e| = (m : ℚ) * 2 ^ e := by
  have hpos := two_zpow_pos e
  rw [abs_mul, abs_of_pos hpos]
  cases neg
  · simp [signed]
  · simp [signed]

theorem natAbs_mul_zpow (z : Int) (e : Int) :
    ((z.natAbs : ℕ) : ℚ) * 2 ^ e = |(z : ℚ) * 2 ^ e| := by
  rw [abs_mul, abs_of_pos (two_zpow_pos e), Nat.cast_natAbs, Int.cast_abs]

theorem signed_decide_lt (z : Int) (e : Int) (m' : Nat) (e' : Int)
    (h : (m' : ℚ) * 2 ^ e' = |(z : ℚ) * 2 ^ e|) :
    ((signed (decide (z < 0)) m' : Int) : ℚ) * 2 ^ e' = (z : ℚ) * 2 ^ e := by
  have hpos := two_zpow_pos e
  by_cases hz : z < 0
  · have hneg : (z : ℚ) * 2 ^ e < 0 := mul_neg_of_neg_of_pos (by exact_mod_cast hz) hpos
    rw [abs_of_neg hneg] at h
    simp only [signed, hz, decide_True, if_true]
    push_cast
    linarith
  · have hnn : 0 ≤ (z : ℚ) * 2 ^ e :=
      mul_nonneg (by exact_mod_cast (not_lt.mp hz)) (le_of_lt hpos)
    rw [abs_of_nonneg hnn] at h
    simp only [signed, hz, decide_False, Bool.false_eq_true, if_false]
    push_cast
    exact h

theorem value_encode32_convert (x : FP) :
    value (encode32 (convert binary32 x)) = toRat (convert binary32 x) := by
  rw [value, decode32_encode32 _ (convert_canonical binary32 (by decide) (by decide) x)]

theorem value_eq_some (w : Nat) (v : ℚ) (h : value w = some v) :
    ∃ (neg : Bool) (m : Nat) (e : Int), decode32 w = FP.fin neg m e ∧
      v = ((signed neg m : Int) : ℚ) * 2 ^ e := by
  unfold value at h
  cases hd : decode32 w with
  | nan => rw [hd] at h; simp [toRat] at h
  | inf neg => rw [hd] at h; simp [toRat] at h
  | fin neg m e =>
    rw [hd] at h
    simp only [toRat, Option.some.injEq] at h
    exact ⟨neg, m, e, rfl, h.symm⟩

/-- The value of the transformed sample when the exact result is a `float`
value: it is the exact result. -/
theorem transform_value_exact (w : Nat) (v : ℚ) (hv : value w = some v)
    (hrep : Representable32 (transformExact v)) :
    value (transform w) = some (transformExact v) := by
  obtain ⟨neg, m, e, hdec, rfl⟩ := value_eq_some w v hv
  obtain ⟨z, e', hz, ht⟩ := sub_mul_convert w neg m e hdec
  have hT : transformExact (((signed neg m : Int) : ℚ) * 2 ^ e) = (z : ℚ) * 2 ^ e' := by
    rw [transformExact, abs_signed, hz]; ring
  rw [hT] at hrep ⊢
  obtain ⟨m0, e0, hm0, he0, he0', hr⟩ := hrep
  rw [ht, value_encode32_convert]
  by_cases hz0 : z = 0
  · rw [if_pos hz0, hz0]
    simp [convert, roundFin, toRat, signed]
  · rw [if_neg hz0]
    have hm53 : m0 < 2 ^ binary64.prec :=
      Nat.lt_trans hm0 (by norm_num [binary64])
    obtain ⟨m4, e4, h4, hv4⟩ := roundFin_exact binary64 (by decide) (decide (z < 0)) z.natAbs e'
      m0 e0 hm53 (by show (-1074 : Int) ≤ e0; omega) (by show e0 ≤ (971 : Int); omega)
      (by rw [natAbs_mul_zpow, hr])
    obtain ⟨m5, e5, h5, hv5⟩ := roundFin_exact binary32 (by decide) (decide (z < 0)) m4 e4
      m0 e0 hm0 he0 he0' (by rw [hv4, natAbs_mul_zpow, hr])
    rw [h4]
    show toRat (roundFin binary32 (decide (z < 0)) m4 e4) = _
    rw [h5, toRat, signed_decide_lt z e' m5 e5 (by rw [hv5, hv4, natAbs_mul_zpow])]

/-- The transformed sample of a finite sample of magnitude at most one is
finite and of magnitude at most one. -/
theorem transform_value_le_one (w : Nat) (v : ℚ) (hv : value w = some v) (hle : |v| ≤ 1) :
    ∃ v' : ℚ, value (transform w) = some v' ∧ |v'| ≤ 1 := by
  obtain ⟨neg, m, e, hdec, rfl⟩ := value_eq_some w v hv
  obtain ⟨z, e', hz, ht⟩ := sub_mul_convert w neg m e hdec
  rw [abs_signed] at hle
  have hnn : 0 ≤ (m : ℚ) * 2 ^ e := mul_nonneg (Nat.cast_nonneg m) (le_of_lt (two_zpow_pos e))
  have hT : |(z : ℚ) * 2 ^ e'| ≤ 1 := by
    rw [hz, abs_le]; constructor <;> linarith
  rw [ht, value_encode32_convert]
  by_cases hz0 : z = 0
  · rw [if_pos hz0]
    refine ⟨0, ?_, by norm_num⟩
    simp [convert, roundFin, toRat, signed]
  · rw [if_neg hz0]
    obtain ⟨m4, e4, h4, hv4⟩ := roundFin_le_one binary64 (by decide) (decide (z < 0)) z.natAbs e'
      (by decide) (by decide) (by rw [natAbs_mul_zpow]; exact hT)
    obtain ⟨m5, e5, h5, hv5⟩ := roundFin_le_one binary32 (by decide) (decide (z < 0)) m4 e4
      (by decide) (by decide) hv4
    rw [h4]
    refine ⟨((signed (decide (z < 0)) m5 : Int) : ℚ) * 2 ^ e5, ?_, ?_⟩
    · show toRat (roundFin binary32 (decide (z < 0)) m4 e4) = _
      rw [h5, toRat]
    · rw [abs_signed]; exact hv5

/-- The transformed sample is a faithful rounding of the exact number
`|s| * 2 - 1`, for every finite sample whose exact result does not exceed the
range of `float`: it has the sign of the exact result, and no multiple of a unit
in the last place `2^g` of the format lies strictly between the two. -/
theorem transform_value_faithful (w : Nat) (v : ℚ) (hv : value w = some v) (g : Int)
    (b0 : Nat) (hg1 : -149 ≤ g) (hg2 : g ≤ 104) (hb0 : b0 < 2 ^ 24)
    (hle : |transformExact v| ≤ (b0 : ℚ) * 2 ^ g) :
    ∃ t : ℚ, value (transform w) = some t ∧
      (transformExact v < 0 → t ≤ 0) ∧ (0 ≤ transformExact v → 0 ≤ t) ∧
      ∀ a b : Nat, (a : ℚ) * 2 ^ g ≤ |transformExact v| → |transformExact v| ≤ (b : ℚ) * 2 ^ g →
        (a : ℚ) * 2 ^ g ≤ |t| ∧ |t| ≤ (b : ℚ) * 2 ^ g := by
  obtain ⟨neg, m, e, hdec, rfl⟩ := value_eq_some w v hv
  obtain ⟨z, e', hz, ht⟩ := sub_mul_convert w neg m e hdec
  have hT : transformExact (((signed neg m : Int) : ℚ) * 2 ^ e) = (z : ℚ) * 2 ^ e' := by
    rw [transformExact, abs_signed, hz]; ring
  rw [hT] at hle ⊢
  rw [ht, value_encode32_convert]
  have hpos := two_zpow_pos e'
  by_cases hz0 : z = 0
  · rw [if_pos hz0]
    refine ⟨0, by simp [convert, roundFin, toRat, signed], fun _ => le_refl _,
      fun _ => le_refl _, fun a b ha hb => ?_⟩
    rw [hz0, Int.cast_zero, zero_mul, abs_zero] at ha hb
    rw [abs_zero]
    exact ⟨ha, hb⟩
  · rw [if_neg hz0]
    have hm53 : b0 < 2 ^ binary64.prec := Nat.lt_trans hb0 (by norm_num [binary64])
    obtain ⟨m4, e4, h4, hup4, hlo4⟩ := roundFin_grid binary64 (by decide) (decide (z < 0))
      z.natAbs e' g b0 (by show (-1074 : Int) ≤ g; omega) (by show g ≤ (971 : Int); omega) hm53
      (by rw [natAbs_mul_zpow]; exact hle)
    obtain ⟨m5, e5, h5, hup5, hlo5⟩ := roundFin_grid binary32 (by decide) (decide (z < 0))
      m4 e4 g b0 hg1 hg2 hb0 (hup4 b0 (by rw [natAbs_mul_zpow]; exact hle))
    rw [h4]
    have hnn5 : 0 ≤ (m5 : ℚ) * 2 ^ e5 :=
      mul_nonneg (Nat.cast_nonneg m5) (le_of_lt (two_zpow_pos e5))
    refine ⟨((signed (decide (z < 0)) m5 : Int) : ℚ) * 2 ^ e5, ?_, ?_, ?_, ?_⟩
    · show toRat (roundFin binary32 (decide (z < 0)) m4 e4) = _
      rw [h5, toRat]
    · intro hneg
      have hzneg : z < 0 := by
        by_contra hcon
        have : 0 ≤ (z : ℚ) * 2 ^ e' :=
          mul_nonneg (by exact_mod_cast (not_lt.mp hcon)) (le_of_lt hpos)
        linarith
      simp only [signed, hzneg, decide_True, if_true]
      push_cast
      linarith
    · intro hnn
      have hznn : ¬ z < 0 := by
        intro hcon
        have : (z : ℚ) * 2 ^ e' < 0 := mul_neg_of_neg_of_pos (by exact_mod_cast hcon) hpos
        linarith
      simp only [signed, hznn, decide_False, Bool.false_eq_true, if_false]
      push_cast
      exact hnn5
    · intro a b ha hb
      rw [abs_signed]
      rw [← natAbs_mul_zpow] at ha hb
      exact ⟨hlo5 a (hlo4 a ha), hup5 b (hup4 b hb)⟩

/-! ## Sample values -/

theorem value_f32Zero : value f32Zero = some 0 := by
  have h : decode32 f32Zero = FP.fin false 0 (-149) := by decide
  simp [value, h, toRat, signed]

theorem value_f32Half : value f32Half = some (1 / 2) := by
  have h : decode32 f32Half = FP.fin false 8388608 (-24) := by decide
  rw [value, h, toRat]
  norm_num [signed, zpow_neg]

theorem value_f32NegHalf : value f32NegHalf = some (-(1 / 2)) := by
  have h : decode32 f32NegHalf = FP.fin true 8388608 (-24) := by decide
  rw [value, h, toRat]
  norm_num [signed, zpow_neg]

theorem value_f32One : value f32One = some 1 := by
  have h : decode32 f32One = FP.fin false 8388608 (-23) := by decide
  rw [value, h, toRat]
  norm_num [signed, zpow_neg]

theorem value_f32NegOne : value f32NegOne = some (-1) := by
  have h : decode32 f32NegOne = FP.fin true 8388608 (-23) := by decide
  rw [value, h, toRat]
  norm_num [signed, zpow_neg]

theorem representable32_zero : Representable32 0 :=
  ⟨0, 0, by norm_num, by norm_num, by norm_num, by norm_num⟩

theorem representable32_one : Representable32 1 :=
  ⟨1, 0, by norm_num, by norm_num, by norm_num, by norm_num⟩

theorem representable32_neg_one : Representable32 (-1) :=
  ⟨1, 0, by norm_num, by norm_num, by norm_num, by norm_num⟩

/-! ## Values of the transform at the samples used below -/

theorem transform_zero : transform f32Zero = f32NegOne := by decide

theorem transform_half : transform f32Half = f32Zero := by decide

theorem transform_one : transform f32One = f32One := by decide

theorem transform_neg_one : transform f32NegOne = f32One := by decide

theorem transform_neg_half : transform f32NegHalf = f32Zero := by decide

/-! ## The function `f` -/

/-- C1: for a frame of `CHANNELS = 2` samples and a channel index `i < 2`, the
sample at index `i` after `f` is the transform `fabs(s)*2-1` of the sample `s` at
index `i` before the call (computed in IEEE arithmetic; it is the exact number
`|s| * 2 - 1` whenever that number is a `float` value), and the frame still has
exactly 2 samples. -/
theorem f_frame (frame : List Nat) (hlen : frame.length = CHANNELS) (i : Nat)
    (hi : i < CHANNELS) :
    (∃ s, frame[i]? = some s ∧ (f frame)[i]? = some (transform s) ∧
      ∀ v : ℚ, value s = some v → Representable32 (|v| * 2 - 1) →
        value (transform s) = some (|v| * 2 - 1)) ∧
      (f frame).length = 2 := by
  have hi' : i < frame.length := by rw [hlen]; exact hi
  refine ⟨⟨frame[i], List.getElem?_eq_getElem hi', ?_, ?_⟩, ?_⟩
  · rw [f_eq_map frame hlen, List.getElem?_map, List.getElem?_eq_getElem hi', Option.map_some']
  · intro v hv hrep
    exact transform_value_exact _ v hv hrep
  · rw [length_f, hlen, CHANNELS]

theorem f_frame_witness :
    [f32Half, f32NegOne].length = CHANNELS ∧ 1 < CHANNELS ∧
      (∃ s, [f32Half, f32NegOne][1]? = some s ∧
        (f [f32Half, f32NegOne])[1]? = some (transform s)) ∧
      (f [f32Half, f32NegOne]).length = 2 :=
  ⟨rfl, by decide,
    (f_frame [f32Half, f32NegOne] rfl 1 (by decide)).1.elim
      (fun s hs => ⟨s, hs.1, hs.2.1⟩),
    (f_frame [f32Half, f32NegOne] rfl 1 (by decide)).2⟩

/-! ## The processing pass -/

theorem getElem?_callF_ne (b : List (List Nat)) (i j : Nat) (h : j ≠ i) :
    (callF i b)[j]? = b[j]? := by
  rw [callF, List.getElem?_set, if_neg (fun hij => h hij.symm)]

theorem getElem?_callF_self (b : List (List Nat)) (i : Nat) :
    (callF i b)[i]? = b[i]?.map f := by
  rw [callF, List.getElem?_set, if_pos rfl]
  by_cases hi : i < b.length
  · rw [if_pos hi, List.getD_eq_getElem?_getD, List.getElem?_eq_getElem hi]
    rfl
  · rw [if_neg hi, List.getElem?_eq_none (by omega)]
    rfl

/-- C2: on a block of 1024 frames of 2 samples the processing pass (calling `f`
on `buffer[i]` for `i = 0..1023`) leaves at frame `i`, channel `c` the transform
`fabs(s)*2-1` of the sample `s` that was there (computed in IEEE arithmetic; it
is the exact number `|s| * 2 - 1` whenever that number is a `float` value); the
output frame at an index depends only on the input frame at that index; and one
call of `f` on frame `i` changes frame `i` into `f` of it and leaves every other
frame of the block unchanged. -/
theorem processBlock_samples (buffer : List (List Nat)) (hlen : buffer.length = BUFSIZE)
    (hfr : ∀ fr ∈ buffer, fr.length = CHANNELS) :
    (∀ i c, i < 1024 → c < 2 →
      ∃ s, sampleAt buffer i c = some s ∧
        sampleAt (processBlock buffer) i c = some (transform s) ∧
        ∀ v : ℚ, value s = some v → Representable32 (|v| * 2 - 1) →
          value (transform s) = some (|v| * 2 - 1)) ∧
    (∀ (buffer' : List (List Nat)) (i : Nat), buffer'.length = BUFSIZE → buffer'[i]? = buffer[i]? →
      (processBlock buffer')[i]? = (processBlock buffer)[i]?) ∧
    (∀ (b : List (List Nat)) (i j : Nat), j ≠ i → (callF i b)[j]? = b[j]?) ∧
    (∀ (b : List (List Nat)) (i : Nat), (callF i b)[i]? = b[i]?.map f) := by
  refine ⟨?_, ?_, getElem?_callF_ne, getElem?_callF_self⟩
  · intro i c hi hc
    have hi' : i < buffer.length := by rw [hlen]; exact hi
    have hc' : c < buffer[i].length := by
      rw [hfr _ (List.getElem_mem hi')]; exact hc
    refine ⟨buffer[i][c], ?_, ?_, ?_⟩
    · rw [sampleAt, List.getElem?_eq_getElem hi', Option.some_bind,
        List.getElem?_eq_getElem hc']
    · rw [sampleAt, processBlock_map buffer hlen hfr, List.getElem?_map,
        List.getElem?_eq_getElem hi', Option.map_some', Option.some_bind, List.getElem?_map,
        List.getElem?_eq_getElem hc', Option.map_some']
    · intro v hv hrep
      exact transform_value_exact _ v hv hrep
  · intro buffer' i hlen' h
    rw [processBlock_eq_map buffer' hlen', processBlock_eq_map buffer hlen, List.getElem?_map,
      List.getElem?_map, h]

theorem processBlock_samples_witness :
    (constBuffer f32Half).length = BUFSIZE ∧
    (∀ fr ∈ constBuffer f32Half, fr.length = CHANNELS) ∧
    (∀ i c, i < 1024 → c < 2 →
      ∃ s, sampleAt (constBuffer f32Half) i c = some s ∧
        sampleAt (processBlock (constBuffer f32Half)) i c = some (transform s) ∧
        ∀ v : ℚ, value s = some v → Representable32 (|v| * 2 - 1) →
          value (transform s) = some (|v| * 2 - 1)) :=
  ⟨(isBuffer_constBuffer f32Half (by decide)).1,
    fun fr h => ((isBuffer_constBuffer f32Half (by decide)).2 fr h).1,
    (processBlock_samples (constBuffer f32Half) (isBuffer_constBuffer f32Half (by decide)).1
      (fun fr h => ((isBuffer_constBuffer f32Half (by decide)).2 fr h).1)).1⟩

/-! ## Block sizes -/

theorem map_length_processBlock (b : List (List Nat)) :
    (processBlock b).map List.length = b.map List.length := by
  rw [processBlock_eq, List.map_append, List.map_map]
  have h : (List.length ∘ f) = List.length := funext length_f
  rw [h, ← List.map_append, List.take_append_drop]

theorem read_take (data : List Nat) (b : List (List Nat)) :
    read (data.take sizeofBuffer) b = read data b := by
  have h : min (data.take sizeofBuffer).length sizeofBuffer = min data.length sizeofBuffer := by
    rw [List.length_take]; omega
  unfold read
  rw [List.take_take, Nat.min_self, h]

/-- C3: in a loop iteration whose read delivers the full request, the number of
bytes written equals the number of bytes read, `1024 * 2 * 4 = 8192`; the
transform pass changes neither the frame count nor the channel count of a block;
the read stores at most `sizeof buffer` bytes and the write hands over exactly
`sizeof buffer` bytes. -/
theorem block_size_round_trip (buffer : List (List Nat)) (data : List Nat)
    (hfull : data.length = sizeofBuffer) :
    (iteration buffer data).2.length = data.length ∧
    data.length = 8192 ∧ sizeofBuffer = 1024 * 2 * 4 ∧
    (∀ b : List (List Nat), (processBlock b).length = b.length ∧
      (processBlock b).map List.length = b.map List.length) ∧
    (∀ (b : List (List Nat)) (d : List Nat), read (d.take sizeofBuffer) b = read d b) ∧
    (∀ (b : List (List Nat)) (d : List Nat), (iteration b d).2.length = sizeofBuffer) := by
  refine ⟨?_, ?_, rfl, fun b => ⟨length_processBlock b, map_length_processBlock b⟩,
    fun b d => read_take d b, length_iteration_snd⟩
  · rw [length_iteration_snd, hfull]
  · rw [hfull]; rfl

theorem block_size_round_trip_witness :
    (constBlock f32Zero).length = sizeofBuffer ∧
    (iteration (constBuffer f32One) (constBlock f32Zero)).2.length
      = (constBlock f32Zero).length :=
  ⟨length_bufferBytes _ (isBuffer_constBuffer f32Zero (by decide)).1
      (fun fr h => ((isBuffer_constBuffer f32Zero (by decide)).2 fr h).1),
    (block_size_round_trip (constBuffer f32One) (constBlock f32Zero)
      (length_bufferBytes _ (isBuffer_constBuffer f32Zero (by decide)).1
        (fun fr h => ((isBuffer_constBuffer f32Zero (by decide)).2 fr h).1))).1⟩

/-! ## The loop on full blocks -/

theorem sampleOfBlock_blockTransform (b : List Nat) (k : Nat) (hk : k < BUFSIZE * CHANNELS) :
    sampleOfBlock (blockTransform b) k = transform (sampleOfBlock b k) := by
  have hi : k / CHANNELS < BUFSIZE := by
    apply Nat.div_lt_of_lt_mul
    rw [Nat.mul_comm]; exact hk
  have hc : k % CHANNELS < CHANNELS := Nat.mod_lt _ (by decide)
  have hkeq : k / CHANNELS * CHANNELS + k % CHANNELS = k := by
    rw [Nat.mul_comm]; exact Nat.div_add_mod k CHANNELS
  have hX : ∀ fr ∈ (bufferOfBytes b).map (fun fr => fr.map transform), fr.length = CHANNELS := by
    intro fr hfr
    rw [List.mem_map] at hfr
    obtain ⟨fr0, h0, rfl⟩ := hfr
    rw [List.length_map]
    exact length_frame_bufferOfBytes b fr0 h0
  have hfr : ((bufferOfBytes b).map (fun fr => fr.map transform))[k / CHANNELS]?
      = some (((List.range CHANNELS).map fun c => floatOfBytes
          ((b.drop (sizeofFloat * (k / CHANNELS * CHANNELS + c))).take sizeofFloat)).map
            transform) := by
    rw [List.getElem?_map, getElem?_bufferOfBytes b _ hi, Option.map_some']
  have hw : (((List.range CHANNELS).map fun c => floatOfBytes
      ((b.drop (sizeofFloat * (k / CHANNELS * CHANNELS + c))).take sizeofFloat)).map
        transform)[k % CHANNELS]? = some (transform (sampleOfBlock b k)) := by
    rw [List.getElem?_map, List.getElem?_map, List.getElem?_range hc, Option.map_some',
      Option.map_some', hkeq, sampleOfBlock]
  have hs := slice_bufferBytes _ hX (k / CHANNELS) (k % CHANNELS) _ _ hfr hw
  rw [hkeq] at hs
  rw [sampleOfBlock, blockTransform, hs, floatOfBytes_bytesOfFloat _ (transform_lt _)]

theorem sampleOfBlock_constBlock (w : Nat) (hw : w < 2 ^ 32) (k : Nat)
    (hk : k < BUFSIZE * CHANNELS) : sampleOfBlock (constBlock w) k = w := by
  have hi : k / CHANNELS < BUFSIZE := by
    apply Nat.div_lt_of_lt_mul
    rw [Nat.mul_comm]; exact hk
  have hc : k % CHANNELS < CHANNELS := Nat.mod_lt _ (by decide)
  have hkeq : k / CHANNELS * CHANNELS + k % CHANNELS = k := by
    rw [Nat.mul_comm]; exact Nat.div_add_mod k CHANNELS
  have hfr : (constBuffer w)[k / CHANNELS]? = some (List.replicate CHANNELS w) := by
    rw [constBuffer, List.getElem?_replicate, if_pos hi]
  have hsw : (List.replicate CHANNELS w)[k % CHANNELS]? = some w := by
    rw [List.getElem?_replicate, if_pos hc]
  have hs := slice_bufferBytes (constBuffer w)
    (fun fr h => ((isBuffer_constBuffer w hw).2 fr h).1) (k / CHANNELS) (k % CHANNELS) _ _ hfr hsw
  rw [hkeq] at hs
  rw [sampleOfBlock, constBlock, hs, floatOfBytes_bytesOfFloat _ hw]

theorem length_blockTransform (b : List Nat) : (blockTransform b).length = sizeofBuffer := by
  rw [blockTransform]
  apply length_bufferBytes
  · rw [List.length_map]; exact length_bufferOfBytes b
  · intro fr hfr
    rw [List.mem_map] at hfr
    obtain ⟨fr0, h0, rfl⟩ := hfr
    rw [List.length_map]
    exact length_frame_bufferOfBytes b fr0 h0

theorem blockValues_eq_map_some (b : List Nat) (vs : List ℚ)
    (h : blockValues b = vs.map some) (k : Nat) (hk : k < BUFSIZE * CHANNELS) :
    ∃ v, vs[k]? = some v ∧ value (sampleOfBlock b k) = some v := by
  have h1 := congrArg (fun l => l[k]?) h
  simp only [blockValues, List.getElem?_map, List.getElem?_range hk, Option.map_some'] at h1
  cases hv : vs[k]? with
  | none => rw [hv] at h1; simp at h1
  | some v => rw [hv] at h1; exact ⟨v, rfl, by simpa using h1⟩

/-- C4: when every read delivers a full block, running the loop over the reads
`b_1 .. b_n` writes one block per block read, in the same order, each a function
of the block read alone, whatever the buffer held at the start; and the block
written for `b_j` is `T(b_j)`, where `T` applies `|s| * 2 - 1` to every sample:
sample `k` of the block written is the program's transform of sample `k` of
`b_j`, its value is the exact number `|s| * 2 - 1` whenever that number is a
`float` value, and the sample values of the block written are the
specification's `T` of the sample values of `b_j` whenever these are `float`
values. -/
theorem mainLoop_full_blocks (buffer : List (List Nat)) (blocks : List (List Nat))
    (hfull : ∀ b ∈ blocks, b.length = sizeofBuffer) :
    mainLoop buffer blocks = blocks.map blockTransform ∧
    (mainLoop buffer blocks).length = blocks.length ∧
    (∀ (j : Nat) (b : List Nat), blocks[j]? = some b →
      ∃ out : List Nat, (mainLoop buffer blocks)[j]? = some out ∧ out.length = b.length ∧
        (∀ k : Nat, k < BUFSIZE * CHANNELS →
          sampleOfBlock out k = transform (sampleOfBlock b k) ∧
          ∀ v : ℚ, value (sampleOfBlock b k) = some v → Representable32 (|v| * 2 - 1) →
            value (sampleOfBlock out k) = some (|v| * 2 - 1)) ∧
        (∀ vs : List ℚ, blockValues b = vs.map some →
          (∀ v ∈ vs, Representable32 (|v| * 2 - 1)) →
          blockValues out = (specBlockTransform vs).map some)) := by
  have key : mainLoop buffer blocks = blocks.map blockTransform := by
    induction blocks generalizing buffer with
    | nil => rfl
    | cons d rest ih =>
      have hd : sizeofBuffer ≤ d.length := Nat.le_of_eq (hfull d (List.mem_cons_self _ _)).symm
      rw [mainLoop, iteration_full buffer d hd, List.map_cons]
      rw [ih _ (fun b hb => hfull b (List.mem_cons_of_mem _ hb))]
  refine ⟨key, by rw [key, List.length_map], ?_⟩
  intro j b hb
  have hmem : b ∈ blocks := by
    obtain ⟨h, rfl⟩ := List.getElem?_eq_some_iff.mp hb
    exact List.getElem_mem h
  have hpt : ∀ k : Nat, k < BUFSIZE * CHANNELS →
      ∀ v : ℚ, value (sampleOfBlock b k) = some v → Representable32 (|v| * 2 - 1) →
        value (sampleOfBlock (blockTransform b) k) = some (|v| * 2 - 1) := by
    intro k hk v hv hrep
    rw [sampleOfBlock_blockTransform b k hk]
    exact transform_value_exact _ v hv hrep
  refine ⟨blockTransform b, ?_, ?_, fun k hk => ⟨sampleOfBlock_blockTransform b k hk, hpt k hk⟩,
    ?_⟩
  · rw [key, List.getElem?_map, hb, Option.map_some']
  · rw [length_blockTransform, hfull b hmem]
  · intro vs hvs hrep
    apply List.ext_getElem?
    intro k
    by_cases hk : k < BUFSIZE * CHANNELS
    · obtain ⟨v, hvk, hval⟩ := blockValues_eq_map_some b vs hvs k hk
      have hvmem : v ∈ vs := by
        obtain ⟨h, rfl⟩ := List.getElem?_eq_some_iff.mp hvk
        exact List.getElem_mem h
      rw [blockValues, List.getElem?_map, List.getElem?_range hk, Option.map_some',
        hpt k hk v hval (hrep v hvmem), specBlockTransform, List.getElem?_map,
        List.getElem?_map, hvk, Option.map_some', Option.map_some']
    · have hlen : vs.length = BUFSIZE * CHANNELS := by
        have := congrArg List.length hvs
        simpa [blockValues] using this.symm
      rw [List.getElem?_eq_none (by simp [blockValues]; omega),
        List.getElem?_eq_none (by simp [specBlockTransform]; omega)]

theorem mainLoop_full_blocks_witness :
    (∀ b ∈ [constBlock f32Half, constBlock f32NegOne], b.length = sizeofBuffer) ∧
    mainLoop (constBuffer f32Zero) [constBlock f32Half, constBlock f32NegOne]
      = [blockTransform (constBlock f32Half), blockTransform (constBlock f32NegOne)] ∧
    blockValues (constBlock f32Half) = (List.replicate (BUFSIZE * CHANNELS) (1 / 2 : ℚ)).map some ∧
    ∃ out : List Nat,
      (mainLoop (constBuffer f32Zero) [constBlock f32Half, constBlock f32NegOne])[0]? = some out ∧
      blockValues out
        = (specBlockTransform (List.replicate (BUFSIZE * CHANNELS) (1 / 2 : ℚ))).map some := by
  have h : ∀ b ∈ [constBlock f32Half, constBlock f32NegOne], b.length = sizeofBuffer := by
    intro b hb
    simp only [List.mem_cons, List.mem_singleton, List.not_mem_nil, or_false] at hb
    rcases hb with rfl | rfl
    · exact length_bufferBytes _ (isBuffer_constBuffer f32Half (by decide)).1
        (fun fr h => ((isBuffer_constBuffer f32Half (by decide)).2 fr h).1)
    · exact length_bufferBytes _ (isBuffer_constBuffer f32NegOne (by decide)).1
        (fun fr h => ((isBuffer_constBuffer f32NegOne (by decide)).2 fr h).1)
  have hvals : blockValues (constBlock f32Half)
      = (List.replicate (BUFSIZE * CHANNELS) (1 / 2 : ℚ)).map some := by
    apply List.ext_getElem?
    intro k
    by_cases hk : k < BUFSIZE * CHANNELS
    · rw [blockValues, List.getElem?_map, List.getElem?_range hk, Option.map_some',
        sampleOfBlock_constBlock f32Half (by decide) k hk, value_f32Half, List.getElem?_map,
        List.getElem?_replicate, if_pos hk, Option.map_some']
    · rw [List.getElem?_eq_none (by simp [blockValues]; omega),
        List.getElem?_eq_none (by simp; omega)]
  have hrep : ∀ v ∈ List.replicate (BUFSIZE * CHANNELS) (1 / 2 : ℚ),
      Representable32 (|v| * 2 - 1) := by
    intro v hv
    rw [List.eq_of_mem_replicate hv]
    have h0 : |(1 / 2 : ℚ)| * 2 - 1 = 0 := by norm_num [abs_of_pos]
    rw [h0]
    exact representable32_zero
  obtain ⟨out, hout, _, _, hspec⟩ :=
    (mainLoop_full_blocks (constBuffer f32Zero) [constBlock f32Half, constBlock f32NegOne] h).2.2
      0 (constBlock f32Half) rfl
  exact ⟨h,
    (mainLoop_full_blocks (constBuffer f32Zero) [constBlock f32Half, constBlock f32NegOne] h).1,
    hvals, out, hout, hspec _ hvals hrep⟩

/-- C5: the transform takes the sample `0.5` to `0`, the sample `-1.0` to `1.0`
and the sample `0.0` to `-1.0`, exactly: on the bit patterns of these values,
and for every bit pattern that denotes `0.5`, `-1.0` or `0.0`. -/
theorem transform_fixed_points :
    (value f32Half = some (1 / 2) ∧ transform f32Half = f32Zero ∧ value f32Zero = some 0) ∧
    (value f32NegOne = some (-1) ∧ transform f32NegOne = f32One ∧ value f32One = some 1) ∧
    (value f32Zero = some 0 ∧ transform f32Zero = f32NegOne ∧ value f32NegOne = some (-1)) ∧
    (∀ w : Nat, value w = some (1 / 2) → value (transform w) = some 0) ∧
    (∀ w : Nat, value w = some (-1) → value (transform w) = some 1) ∧
    (∀ w : Nat, value w = some 0 → value (transform w) = some (-1)) := by
  refine ⟨⟨value_f32Half, transform_half, value_f32Zero⟩,
    ⟨value_f32NegOne, transform_neg_one, value_f32One⟩,
    ⟨value_f32Zero, transform_zero, value_f32NegOne⟩, ?_, ?_, ?_⟩
  · intro w hw
    have h : transformExact (1 / 2) = 0 := by norm_num [transformExact, abs_of_pos]
    have := transform_value_exact w _ hw (by rw [h]; exact representable32_zero)
    rw [h] at this; exact this
  · intro w hw
    have h : transformExact (-1) = 1 := by norm_num [transformExact]
    have := transform_value_exact w _ hw (by rw [h]; exact representable32_one)
    rw [h] at this; exact this
  · intro w hw
    have h : transformExact 0 = -1 := by norm_num [transformExact]
    have := transform_value_exact w _ hw (by rw [h]; exact representable32_neg_one)
    rw [h] at this; exact this

/-- C6: one loop iteration on a full block, whatever the buffer held before: if
every input sample is `0.0` every output sample is `-1.0`; if every input sample
is `1.0` every output sample is `1.0`; if every input sample is `-0.5` every
output sample is `0.0`. -/
theorem end_to_end_constant_blocks (buffer : List (List Nat)) :
    (iteration buffer (constBlock f32Zero)).2 = constBlock f32NegOne ∧
    (iteration buffer (constBlock f32One)).2 = constBlock f32One ∧
    (iteration buffer (constBlock f32NegHalf)).2 = constBlock f32Zero ∧
    (constBlock f32Zero).length = 8192 ∧ (constBlock f32One).length = 8192 ∧
    (constBlock f32NegHalf).length = 8192 ∧
    value f32Zero = some 0 ∧ value f32One = some 1 ∧ value f32NegOne = some (-1) ∧
    value f32NegHalf = some (-(1 / 2)) := by
  have hl : ∀ w, w < 2 ^ 32 → (constBlock w).length = 8192 := fun w hw =>
    length_bufferBytes _ (isBuffer_constBuffer w hw).1
      (fun fr h => ((isBuffer_constBuffer w hw).2 fr h).1)
  refine ⟨?_, ?_, ?_, hl _ (by decide), hl _ (by decide), hl _ (by decide), value_f32Zero,
    value_f32One, value_f32NegOne, value_f32NegHalf⟩
  · rw [iteration_constBlock buffer f32Zero (by decide)]
    exact congrArg constBlock transform_zero
  · rw [iteration_constBlock buffer f32One (by decide)]
    exact congrArg constBlock transform_one
  · rw [iteration_constBlock buffer f32NegHalf (by decide)]
    exact congrArg constBlock transform_neg_half

/-- C7: the transform is not idempotent: some sample `s` has
`transform (transform s) ≠ transform s`; for `s = 0.5`, `transform s = 0` and
`transform (transform s) = -1`. -/
theorem transform_not_idempotent :
    (∃ s, s < 2 ^ 32 ∧ transform (transform s) ≠ transform s) ∧
    value f32Half = some (1 / 2) ∧
    transform f32Half = f32Zero ∧ value (transform f32Half) = some 0 ∧
    transform (transform f32Half) = f32NegOne ∧
    value (transform (transform f32Half)) = some (-1) := by
  have h1 : transform f32Half = f32Zero := transform_half
  have h2 : transform (transform f32Half) = f32NegOne := by rw [h1]; exact transform_zero
  refine ⟨⟨f32Half, by decide, ?_⟩, value_f32Half, h1, ?_, h2, ?_⟩
  · rw [h2, h1]; decide
  · rw [h1]; exact value_f32Zero
  · rw [h2]; exact value_f32NegOne

/-! ## Short reads -/

theorem frameBytes_iteration (B : List (List Nat)) (data : List Nat) (i : Nat) (fr : List Nat)
    (h : (read data B)[i]? = some fr) :
    frameBytes (iteration B data).2 i = (fr.map transform).flatMap bytesOfFloat := by
  rw [iteration_snd]
  apply frameBytes_bufferBytes _ (length_frame_iteration_fst B data)
  rw [iteration_fst, List.getElem?_map, h, Option.map_some']

theorem getElem?_bufferOfBytes_isSome (mem : List Nat) (i : Nat) (hi : i < BUFSIZE) :
    ∃ fr, (bufferOfBytes mem)[i]? = some fr :=
  ⟨_, getElem?_bufferOfBytes mem i hi⟩

theorem length_mainLoop (buffer : List (List Nat)) (reads : List (List Nat)) :
    (mainLoop buffer reads).length = reads.length := by
  induction reads generalizing buffer with
  | nil => rfl
  | cons d rest ih => rw [mainLoop, List.length_cons, List.length_cons, ih]

theorem length_mem_mainLoop (buffer : List (List Nat)) (reads : List (List Nat))
    (out : List Nat) (h : out ∈ mainLoop buffer reads) : out.length = sizeofBuffer := by
  induction reads generalizing buffer with
  | nil => simp [mainLoop] at h
  | cons d rest ih =>
    rw [mainLoop, List.mem_cons] at h
    rcases h with h | h
    · rw [h]; exact length_iteration_snd buffer d
    · exact ih _ h

/-- C8 fails on the code: two runs of the loop from the same initial buffer whose
second read delivers the same (zero) bytes write different second blocks,
because the first blocks read differed: after a block of `0.0` the second block
written is all `1.0`, after a block of `0.5` it is all `-1.0`. -/
theorem stale_block_reaches_output :
    mainLoop (constBuffer f32Zero) [constBlock f32Zero, []]
      = [constBlock f32NegOne, constBlock f32One] ∧
    mainLoop (constBuffer f32Zero) [constBlock f32Half, []]
      = [constBlock f32Zero, constBlock f32NegOne] ∧
    constBlock f32One ≠ constBlock f32NegOne := by
  have run : ∀ w, w < 2 ^ 32 → mainLoop (constBuffer f32Zero) [constBlock w, []]
      = [constBlock (transform w), constBlock (transform (transform w))] := by
    intro w hw
    rw [mainLoop, iteration_constBlock _ w hw, mainLoop,
      iteration_nil_constBuffer _ (transform_lt w), mainLoop]
  refine ⟨?_, ?_, ?_⟩
  · rw [run f32Zero (by decide), transform_zero]
    exact congrArg (fun w => [constBlock f32NegOne, constBlock w]) transform_neg_one
  · rw [run f32Half (by decide), transform_half]
    exact congrArg (fun w => [constBlock f32Zero, constBlock w]) transform_zero
  · intro h
    exact absurd (constBlock_injective _ _ (by decide) (by decide) h) (by decide)

/-- C8 as amended: the block written in an iteration whose read delivers the full
8192 bytes is determined by those bytes alone (it is the block transform of
them), whatever the buffer held before; after a read that delivers fewer bytes
the same holds for the frames lying wholly inside the delivered prefix. -/
theorem full_read_determines_output (buffer buffer' : List (List Nat)) (data : List Nat) :
    (data.length = sizeofBuffer →
      iteration buffer data = iteration buffer' data ∧
        (iteration buffer data).2 = blockTransform data) ∧
    (∀ i : Nat, i < BUFSIZE → sizeofFloat * CHANNELS * (i + 1) ≤ data.length →
      frameBytes (iteration buffer data).2 i = frameBytes (iteration buffer' data).2 i) := by
  constructor
  · intro h
    rw [iteration_full buffer data (Nat.le_of_eq h.symm),
      iteration_full buffer' data (Nat.le_of_eq h.symm)]
    exact ⟨rfl, rfl⟩
  · intro i hi h
    obtain ⟨fr, hfr⟩ := getElem?_bufferOfBytes_isSome data i hi
    rw [frameBytes_iteration buffer data i fr (by rw [read_frame_within data buffer i hi h, hfr]),
      frameBytes_iteration buffer' data i fr
        (by rw [read_frame_within data buffer' i hi h, hfr])]

theorem full_read_determines_output_witness :
    (constBlock f32Half).length = sizeofBuffer ∧
    iteration (constBuffer f32Zero) (constBlock f32Half)
      = iteration (constBuffer f32One) (constBlock f32Half) :=
  have h : (constBlock f32Half).length = sizeofBuffer :=
    length_bufferBytes _ (isBuffer_constBuffer f32Half (by decide)).1
      (fun fr h => ((isBuffer_constBuffer f32Half (by decide)).2 fr h).1)
  ⟨h, ((full_read_determines_output (constBuffer f32Zero) (constBuffer f32One)
    (constBlock f32Half)).1 h).1⟩

/-- C10: a read that delivers only `k < 8192` bytes (`k = 0` at end of stream) is
treated like any other: the loop goes on, the transform is applied to all 1024
frames of the buffer and a full block of 8192 bytes is written; every frame lying
wholly beyond the delivered prefix is written as the transform of what that
buffer slot held before the read, which after a previous iteration is the
transform applied twice to what that iteration had in the buffer after its
read. -/
theorem short_read_processed (buffer : List (List Nat)) (hB : IsBuffer buffer)
    (data : List Nat) :
    (∀ rest : List (List Nat), mainLoop buffer (data :: rest)
      = (iteration buffer data).2 :: mainLoop (iteration buffer data).1 rest) ∧
    (∀ reads : List (List Nat), (mainLoop buffer reads).length = reads.length ∧
      ∀ out ∈ mainLoop buffer reads, out.length = sizeofBuffer) ∧
    (iteration buffer data).2.length = 8192 ∧
    (iteration buffer data).2
      = bufferBytes ((read data buffer).map fun fr => fr.map transform) ∧
    (read data buffer).length = 1024 ∧
    (∀ i : Nat, i < BUFSIZE → data.length ≤ sizeofFloat * CHANNELS * i →
      ∃ fr, buffer[i]? = some fr ∧
        frameBytes (iteration buffer data).2 i = (fr.map transform).flatMap bytesOfFloat) ∧
    (∀ (buffer0 : List (List Nat)) (data0 : List Nat) (i : Nat), i < BUFSIZE →
      data.length ≤ sizeofFloat * CHANNELS * i →
      ∃ fr0, (read data0 buffer0)[i]? = some fr0 ∧
        frameBytes (iteration (iteration buffer0 data0).1 data).2 i
          = (fr0.map fun s => transform (transform s)).flatMap bytesOfFloat) := by
  refine ⟨fun rest => rfl, fun reads => ⟨length_mainLoop buffer reads,
    length_mem_mainLoop buffer reads⟩, length_iteration_snd buffer data, ?_,
    length_bufferOfBytes _, ?_, ?_⟩
  · rw [iteration_snd, iteration_fst]
  · intro i hi h
    have hi' : i < buffer.length := by rw [hB.1]; exact hi
    refine ⟨buffer[i], List.getElem?_eq_getElem hi', ?_⟩
    apply frameBytes_iteration
    rw [read_frame_beyond data buffer hB i hi h, List.getElem?_eq_getElem hi']
  · intro buffer0 data0 i hi h
    obtain ⟨fr0, hfr0⟩ := getElem?_bufferOfBytes_isSome
      (data0.take sizeofBuffer ++ (bufferBytes buffer0).drop (min data0.length sizeofBuffer)) i hi
    refine ⟨fr0, hfr0, ?_⟩
    rw [frameBytes_iteration _ data i (fr0.map transform), List.map_map]
    · rfl
    · rw [read_frame_beyond data _ (isBuffer_iteration_fst buffer0 data0) i hi h, iteration_fst,
        List.getElem?_map]
      have : (read data0 buffer0)[i]? = some fr0 := hfr0
      rw [this, Option.map_some']

theorem short_read_processed_witness :
    IsBuffer (constBuffer f32Half) ∧
    (iteration (constBuffer f32Half) []).2.length = 8192 ∧
    (∀ i : Nat, i < BUFSIZE → ([] : List Nat).length ≤ sizeofFloat * CHANNELS * i →
      ∃ fr, (constBuffer f32Half)[i]? = some fr ∧
        frameBytes (iteration (constBuffer f32Half) []).2 i
          = (fr.map transform).flatMap bytesOfFloat) :=
  ⟨isBuffer_constBuffer f32Half (by decide),
    (short_read_processed (constBuffer f32Half) (isBuffer_constBuffer f32Half (by decide))
      []).2.2.1,
    (short_read_processed (constBuffer f32Half) (isBuffer_constBuffer f32Half (by decide))
      []).2.2.2.2.2.1⟩

/-! ## Range of the transform -/

/-- C9: the transform maps the nominal range onto itself: a finite sample `s`
with `-1 ≤ s ≤ 1` is taken to a finite sample `t` with `-1 ≤ t ≤ 1`; over exact
rational arithmetic `|s| * 2 - 1` lies in `[-1, 1]` for `s` in `[-1, 1]`, and
every `y` in `[-1, 1]` is `|s| * 2 - 1` for some `s` in `[0, 1]`; the computed
sample is that exact number whenever it is a `float` value. -/
theorem transform_range :
    (∀ (w : Nat) (s : ℚ), value w = some s → -1 ≤ s → s ≤ 1 →
      ∃ t : ℚ, value (transform w) = some t ∧ -1 ≤ t ∧ t ≤ 1) ∧
    (∀ s : ℚ, -1 ≤ s → s ≤ 1 → -1 ≤ |s| * 2 - 1 ∧ |s| * 2 - 1 ≤ 1) ∧
    (∀ y : ℚ, -1 ≤ y → y ≤ 1 → ∃ s : ℚ, 0 ≤ s ∧ s ≤ 1 ∧ |s| * 2 - 1 = y) ∧
    (∀ (w : Nat) (s : ℚ), value w = some s → Representable32 (|s| * 2 - 1) →
      value (transform w) = some (|s| * 2 - 1)) := by
  refine ⟨?_, ?_, ?_, ?_⟩
  · intro w s hw h1 h2
    obtain ⟨t, ht, habs⟩ := transform_value_le_one w s hw (abs_le.mpr ⟨h1, h2⟩)
    exact ⟨t, ht, (abs_le.mp habs).1, (abs_le.mp habs).2⟩
  · intro s h1 h2
    have h0 : 0 ≤ |s| := abs_nonneg s
    have h3 : |s| ≤ 1 := abs_le.mpr ⟨h1, h2⟩
    constructor <;> linarith
  · intro y h1 h2
    refine ⟨(y + 1) / 2, by linarith, by linarith, ?_⟩
    rw [abs_of_nonneg (by linarith)]
    ring
  · intro w s hw hrep
    exact transform_value_exact w s hw hrep

theorem transform_range_witness :
    value f32NegHalf = some (-(1 / 2)) ∧ (-1 : ℚ) ≤ -(1 / 2) ∧ (-(1 / 2) : ℚ) ≤ 1 ∧
      ∃ t : ℚ, value (transform f32NegHalf) = some t ∧ -1 ≤ t ∧ t ≤ 1 :=
  ⟨value_f32NegHalf, by norm_num, by norm_num,
    transform_range.1 f32NegHalf (-(1 / 2)) value_f32NegHalf (by norm_num) (by norm_num)⟩

end FlowSynth
